import Mathlib

/-!
# GoRPC client runtime: a shallow embedding of `gorpc/client.go`

The client object, the heap of `Call` records it points to, the channels it
sends on and the codec it drives are gathered in one `World` value; every Go
method becomes a function from `World` to `World` (plus its Go results).

* A `*Call` is an index into `World.calls`; `nil` is `none`.
* `pending map[uint64]*Call` is an association list with the three map
  operations the source uses (index, delete, assign) and `range`.
* `uint64` arithmetic is `Nat` arithmetic modulo `2^64`.
* The codec is an interface whose implementation lives outside the client:
  what a read returns is an input of the model, and every codec method the
  client invokes is recorded in `World.ccLog`.
* `World.sent` lists the channel sends that have completed. `Call.done` is the
  effect of `call.Done <- call` once it completes; whether the send finds a
  free buffer slot or blocks is modelled by `Call.doneBlocking`, and the flush
  with sends that may block by `terminateCallsBlocking`.
* The two mutexes are not modelled: each method body is one atomic step.
-/

namespace GoRPC

/-! ## Data model -/

/-- Go `error` values that the client creates or passes on; a nil `error` is `none`. -/
inductive GoError where
  | ErrShutdown
  | mk (msg : String)
  deriving DecidableEq, Repr

/-- The `Error()` method. -/
def GoError.Error : GoError → String
  | .ErrShutdown => "connection is shut down"
  | .mk msg => msg

/-- Result of `errors.New(text)`. -/
def errors_New (text : String) : GoError := .mk text

/-- Result of `fmt.Errorf(format)` with no operands: the formatted text is kept uninterpreted. -/
def fmt_Errorf (format : String) : GoError := .mk format

/-- Request and reply payloads are opaque to the client. -/
abbrev Payload := Nat

/-- Address of a caller-owned reply variable. -/
abbrev Addr := Nat

/-- Address of a `Call` record. -/
abbrev Ptr := Nat

/-- A channel value `chan *Call`: its identity and its buffer capacity. -/
structure Chan where
  id : Nat
  cap : Nat
  deriving DecidableEq, Repr

/-- The record `codec.Header`. -/
structure Header where
  ServiceMethod : String
  Seq : Nat
  Error : String
  deriving DecidableEq, Repr

/-- The record `Call`. `Reply` is an interface value holding a pointer to the caller variable
(or nil). -/
structure Call where
  Seq : Nat
  ServiceMethod : String
  Args : Payload
  Reply : Option Addr
  Error : Option GoError
  Done : Chan
  deriving DecidableEq, Repr

/-- The connection options record. Its declaration is outside the client source; the fields
are the ones the client and the handshake use. -/
structure ConnOption where
  MagicNumber : Nat
  CodecType : String
  ConnectTimeout : Nat
  HandleTimeout : Nat
  deriving DecidableEq, Repr

/-- A Go `map[uint64]*Call`. -/
abbrev PendingMap := List (Nat × Ptr)

/-- Map index `m[k]`; a missing key gives the nil pointer. -/
def mapGet (m : PendingMap) (k : Nat) : Option Ptr :=
  match m with
  | [] => none
  | (k1, v) :: rest => if k1 = k then some v else mapGet rest k

/-- Builtin `delete(m, k)`. -/
def mapDelete (m : PendingMap) (k : Nat) : PendingMap :=
  m.filter (fun e => decide (e.1 ≠ k))

/-- Map assignment `m[k] = v`. -/
def mapSet (m : PendingMap) (k : Nat) (v : Ptr) : PendingMap :=
  mapDelete m k ++ [(k, v)]

/-- The mutable fields of `Client` (the mutexes and the codec handle are left out, see the
header of this file). -/
structure Client where
  opt : Option ConnOption
  header : Header
  seq : Nat
  pending : PendingMap
  closing : Bool
  shutdown : Bool
  deriving DecidableEq, Repr

/-- One invocation of a codec method by the client. -/
inductive CodecCall where
  | readHeader
  | readBody (target : Option Addr)
  | write (h : Header) (body : Payload)
  | close
  deriving DecidableEq, Repr

/-- Everything the client code reads or writes. -/
structure World where
  client : Client
  calls : List Call
  slots : List Payload
  chans : Nat
  sent : List (Chan × Ptr)
  ccLog : List CodecCall
  deriving DecidableEq, Repr

/-- What one `ReadBody` call of the codec does: the value it stores through a non-nil target
and the error it returns. -/
structure BodyRead where
  value : Payload
  err : Option GoError
  deriving DecidableEq, Repr

/-- Size of the `uint64` range. -/
def u64 : Nat := 2 ^ 64

/-! ## Operations of `client.go` -/

/-- The record `c` after `c.Error = err`. -/
def Call.setError (err : Option GoError) (c : Call) : Call :=
  { c with Error := err }

/-- The record `c` after `c.Seq = seq`. -/
def Call.setSeq (seq : Nat) (c : Call) : Call :=
  { c with Seq := seq }

/-- Assignment to a field of `*p`. -/
def updCall (w : World) (p : Ptr) (f : Call → Call) : World :=
  match w.calls[p]? with
  | some c => { w with calls := w.calls.set p (f c) }
  | none => w

/-- Method `(call *Call) done()`: the effect of `call.Done <- call` once the send has
completed. The wait for a free buffer slot is in `Call.doneBlocking`. -/
def Call.done (w : World) (p : Ptr) : World :=
  match w.calls[p]? with
  | some c => { w with sent := w.sent ++ [(c.Done, p)] }
  | none => w

/-- Method `Close`. The result of `cc.Close()` is the input `closeErr`. -/
def Client.Close (w : World) (closeErr : Option GoError) : World × Option GoError :=
  if w.client.closing then (w, some .ErrShutdown)
  else
    ({ w with client := { w.client with closing := true }, ccLog := w.ccLog ++ [.close] },
      closeErr)

/-- Method `IsAvailable`. -/
def Client.IsAvailable (w : World) : Bool :=
  !w.client.shutdown && !w.client.closing

/-- Method `registerCall`. -/
def registerCall (w : World) (call : Ptr) : World × Nat × Option GoError :=
  if w.client.closing || w.client.shutdown then (w, 0, some .ErrShutdown)
  else
    let w1 := updCall w call (Call.setSeq w.client.seq)
    let s := match w1.calls[call]? with
      | some c => c.Seq
      | none => w.client.seq
    let w2 := { w1 with client :=
      { w1.client with pending := mapSet w1.client.pending s call,
                       seq := (w1.client.seq + 1) % u64 } }
    (w2, s, none)

/-- Method `removeCall`. -/
def removeCall (w : World) (seq : Nat) : World × Option Ptr :=
  let call := mapGet w.client.pending seq
  ({ w with client := { w.client with pending := mapDelete w.client.pending seq } }, call)

/-- Body of the `range` loop of `terminateCalls`, for the map entry `e`. -/
def flushCall (err : Option GoError) (w : World) (e : Nat × Ptr) : World :=
  Call.done (updCall w e.2 (Call.setError err)) e.2

/-- Method `terminateCalls` in the case that none of its sends blocks. The `range` loop
visits the entries in list order. The general case is `terminateCallsBlocking`. -/
def terminateCalls (w : World) (err : Option GoError) : World :=
  let w1 := { w with client := { w.client with shutdown := true } }
  w1.client.pending.foldl (flushCall err) w1

/-- Codec method `ReadBody(target)` as the client sees it. -/
def ReadBody (w : World) (target : Option Addr) (rb : BodyRead) : World × Option GoError :=
  let slots := match target with
    | some a => w.slots.set a rb.value
    | none => w.slots
  ({ w with slots := slots, ccLog := w.ccLog ++ [.readBody target] }, rb.err)

/-- One iteration of the loop of `receive`: `rh` is what `ReadHeader` returns, `rb` what the
following `ReadBody` does. The second component is the loop variable `err`. -/
def receiveIter (w : World) (rh : Except GoError Header) (rb : BodyRead) :
    World × Option GoError :=
  let w0 := { w with ccLog := w.ccLog ++ [.readHeader] }
  match rh with
  | .error e => (w0, some e)
  | .ok h =>
    let r := removeCall w0 h.Seq
    match r.2 with
    | none => ReadBody r.1 none rb
    | some p =>
      if h.Error ≠ "" then
        let w1 := updCall r.1 p (Call.setError (some (fmt_Errorf h.Error)))
        let rd := ReadBody w1 none rb
        (Call.done rd.1 p, rd.2)
      else
        let rd := ReadBody r.1 ((r.1.calls[p]?).bind (fun c => c.Reply)) rb
        let w2 := match rd.2 with
          | some e =>
            updCall rd.1 p (Call.setError (some (fmt_Errorf ("reading body" ++ e.Error))))
          | none => rd.1
        (Call.done w2 p, rd.2)

/-- Method `receive`: the loop over the frames the codec yields, then the flush. After the
frames of `script` the header read fails with `final`. -/
def receive (w : World) (script : List (Header × BodyRead)) (final : GoError) : World :=
  match script with
  | [] => terminateCalls (receiveIter w (.error final) ⟨0, none⟩).1 (some final)
  | (h, rb) :: rest =>
    match receiveIter w (.ok h) rb with
    | (w1, none) => receive w1 rest final
    | (w1, some e) => terminateCalls w1 (some e)

/-- Constructor `NewClientCodec`; `slots` is the caller memory at that moment. The dispatch
loop it starts is the `running` loop state of `System` below. -/
def NewClientCodec (opt : Option ConnOption) (slots : List Payload) : World :=
  { client := { opt := opt, header := ⟨"", 0, ""⟩, seq := 1, pending := [],
                closing := false, shutdown := false },
    calls := [], slots := slots, chans := 0, sent := [], ccLog := [] }

/-- Method `send`. The result of `cc.Write` is the input `wr`. -/
def send (w : World) (call : Ptr) (wr : Option GoError) : World :=
  let r := registerCall w call
  match r.2.2 with
  | some err => Call.done (updCall r.1 call (Call.setError (some err))) call
  | none =>
    let sm := match r.1.calls[call]? with
      | some c => c.ServiceMethod
      | none => ""
    let args := match r.1.calls[call]? with
      | some c => c.Args
      | none => 0
    let hd : Header := { ServiceMethod := sm, Seq := r.2.1, Error := "" }
    let w1 := { r.1 with client := { r.1.client with header := hd },
                         ccLog := r.1.ccLog ++ [.write hd args] }
    match wr with
    | none => w1
    | some err =>
      let rm := removeCall w1 r.2.1
      match rm.2 with
      | some c => Call.done (updCall rm.1 c (Call.setError (some err))) c
      | none => rm.1

/-- The record `&Call{ServiceMethod: ..., Args: ..., Reply: ..., Done: ...}` that `Go`
allocates; the other fields have their zero value. -/
def newCall (serviceMethod : String) (args : Payload) (reply : Option Addr) (done : Chan) :
    Call :=
  { Seq := 0, ServiceMethod := serviceMethod, Args := args, Reply := reply, Error := none,
    Done := done }

/-- The part of `Go` after the channel has been chosen: allocate the `Call`, then `send`. -/
def goWith (w : World) (serviceMethod : String) (args : Payload) (reply : Option Addr)
    (done : Chan) (wr : Option GoError) : World × Ptr :=
  let p := w.calls.length
  (send { w with calls := w.calls ++ [newCall serviceMethod args reply done] } p wr, p)

/-- Method `Go`. `none` stands for the `log.Panic` on an unbuffered channel. -/
def Client.Go (w : World) (serviceMethod : String) (args : Payload) (reply : Option Addr)
    (done : Option Chan) (wr : Option GoError) : Option (World × Ptr) :=
  match done with
  | none =>
    some (goWith { w with chans := w.chans + 1 } serviceMethod args reply ⟨w.chans, 10⟩ wr)
  | some ch =>
    if ch.cap = 0 then none
    else some (goWith w serviceMethod args reply ch wr)

/-- Method `Call` up to its `select`: `Go` with a fresh channel of capacity 1. -/
def Client.CallStart (w : World) (serviceMethod : String) (args : Payload)
    (reply : Option Addr) (wr : Option GoError) : World × Ptr :=
  goWith { w with chans := w.chans + 1 } serviceMethod args reply ⟨w.chans, 1⟩ wr

/-- Method `Call`, branch `<-ctx.Done()` of the `select`; `ctxErr` is `ctx.Err().Error()`. -/
def Client.CallCtxDone (w : World) (call : Ptr) (ctxErr : String) : World × Option GoError :=
  let seq := match w.calls[call]? with
    | some c => c.Seq
    | none => 0
  ((removeCall w seq).1, some (errors_New ("rpc client: call fialed: " ++ ctxErr)))

/-- Method `Call`, branch `call = <-call.Done` of the `select`. -/
def Client.CallDone (w : World) (call : Ptr) : Option GoError :=
  (w.calls[call]?).bind (fun c => c.Error)

/-! ## The client as a state machine -/

/-- Control state of the goroutine running `receive`: inside the loop, out of the loop with
the terminating error and `terminateCalls` still to run, or finished. -/
inductive LoopState where
  | running
  | exited (err : GoError)
  | terminated
  deriving DecidableEq, Repr

/-- The memory together with the control state of the dispatch goroutine. -/
structure System where
  world : World
  loop : LoopState
  deriving DecidableEq, Repr

/-- The atomic steps of client and callers, with the inputs the environment chooses. -/
inductive Step where
  | go (serviceMethod : String) (args : Payload) (reply : Option Addr) (done : Option Chan)
      (wr : Option GoError)
  | callStart (serviceMethod : String) (args : Payload) (reply : Option Addr)
      (wr : Option GoError)
  | recv (rh : Except GoError Header) (rb : BodyRead)
  | cancel (call : Ptr) (ctxErr : String)
  | close (closeErr : Option GoError)
  | terminate

/-- One atomic step. A step that is not enabled (a loop iteration after the loop has exited,
the flush before it has, a `Go` that panics on its argument check) leaves the state as
it is. -/
def step (s : System) (a : Step) : System :=
  match a with
  | .go sm args reply done wr =>
    match Client.Go s.world sm args reply done wr with
    | some r => { s with world := r.1 }
    | none => s
  | .callStart sm args reply wr => { s with world := (Client.CallStart s.world sm args reply wr).1 }
  | .recv rh rb =>
    match s.loop with
    | .running =>
      let r := receiveIter s.world rh rb
      { world := r.1,
        loop := match r.2 with
          | none => .running
          | some e => .exited e }
    | _ => s
  | .cancel p ctxErr => { s with world := (Client.CallCtxDone s.world p ctxErr).1 }
  | .close ce => { s with world := (Client.Close s.world ce).1 }
  | .terminate =>
    match s.loop with
    | .exited e => { world := terminateCalls s.world (some e), loop := .terminated }
    | _ => s

/-- An execution: the steps of a list taken in order. -/
def run (s : System) (tr : List Step) : System :=
  match tr with
  | [] => s
  | a :: rest => run (step s a) rest

/-- State right after `NewClientCodec`: the dispatch goroutine is in its loop. -/
def initSystem (opt : Option ConnOption) (slots : List Payload) : System :=
  { world := NewClientCodec opt slots, loop := .running }

/-- Number of sends of the call `p` on the channel `ch` so far. -/
def sentOn (w : World) (ch : Chan) (p : Ptr) : Nat :=
  w.sent.count (ch, p)

/-- Number of sends of the call `p` so far, on any channel. -/
def sentCount (w : World) (p : Ptr) : Nat :=
  w.sent.countP (fun e => decide (e.2 = p))

/-- The steps the dispatch goroutine takes on the frames of `script` followed by a failing
header read. -/
def receiveSteps (script : List (Header × BodyRead)) (final : GoError) : List Step :=
  script.map (fun f => Step.recv (.ok f.1) f.2) ++
    [Step.recv (.error final) ⟨0, none⟩, Step.terminate]

/-! ## Channel buffers and the blocking send -/

/-- The `Done` channel of the call at `p`, when a call is allocated there. -/
def doneOf (w : World) (p : Ptr) : Option Chan :=
  (w.calls[p]?).map Call.Done

/-- Method `(call *Call) done()` against the channel buffers. `lens ch` is `len(ch)`, the
number of items waiting in the buffer of `ch`. With a free slot the send completes as
`Call.done` and the item takes the slot; with a full buffer the goroutine blocks, which is
`none`. -/
def Call.doneBlocking (w : World) (lens : Chan → Nat) (p : Ptr) :
    Option (World × (Chan → Nat)) :=
  match doneOf w p with
  | some d =>
    if lens d < d.cap then
      some (Call.done w p, fun ch => if ch = d then lens ch + 1 else lens ch)
    else none
  | none => some (w, lens)

/-- Where a run of `terminateCalls` stands: the memory, the channel buffers, and whether the
method has returned (`true`) or its goroutine is blocked at a send (`false`). -/
structure Flush where
  world : World
  lens : Chan → Nat
  returned : Bool

/-- The `range` loop of `terminateCalls` over the entries `l`, with sends that may block. No
receiver takes an item out of a buffer while the loop runs. -/
def flushFrom (err : Option GoError) (w : World) (lens : Chan → Nat) (l : PendingMap) : Flush :=
  match l with
  | [] => ⟨w, lens, true⟩
  | e :: rest =>
    let w1 := updCall w e.2 (Call.setError err)
    match Call.doneBlocking w1 lens e.2 with
    | some r => flushFrom err r.1 r.2 rest
    | none => ⟨w1, lens, false⟩

/-- Method `terminateCalls`, with sends that may block. -/
def terminateCallsBlocking (w : World) (err : Option GoError) (lens : Chan → Nat) : Flush :=
  let w1 := { w with client := { w.client with shutdown := true } }
  flushFrom err w1 lens w1.client.pending

/-- Number of pending calls whose `Done` channel is `ch`. -/
def pendingOn (w : World) (ch : Chan) : Nat :=
  w.client.pending.countP (fun e => decide (doneOf w e.2 = some ch))

/-- Every `Done` channel of a pending call has free buffer slots for all the pending calls
that share it. -/
def hasRoom (w : World) (lens : Chan → Nat) : Bool :=
  w.client.pending.all (fun e =>
    match doneOf w e.2 with
    | some d => decide (lens d + pendingOn w d ≤ d.cap)
    | none => true)

/-! ## Registry operations on their own -/

/-- The operations on the registry fields (`seq`, `pending`, `closing`, `shutdown`). -/
inductive RegOp where
  | registerCall (c : Call)
  | removeCall (seq : Nat)
  | terminateCalls (err : Option GoError)
  | close (closeErr : Option GoError)

/-- Runs registry operations in order and collects the `Seq` returned by each successful
`registerCall`. The argument of a `registerCall` is a newly allocated record `c`. -/
def runRegOps (w : World) (ops : List RegOp) : World × List Nat :=
  match ops with
  | [] => (w, [])
  | .registerCall c :: rest =>
    let r := registerCall { w with calls := w.calls ++ [c] } w.calls.length
    let t := runRegOps r.1 rest
    match r.2.2 with
    | none => (t.1, r.2.1 :: t.2)
    | some _ => t
  | .removeCall seq :: rest => runRegOps (removeCall w seq).1 rest
  | .terminateCalls err :: rest => runRegOps (terminateCalls w err) rest
  | .close ce :: rest => runRegOps (Client.Close w ce).1 rest

/-! ## Option resolution, tunnel bootstrap, address dispatch -/

/-- Function `parseOptions`; the package variable `DefaultOption` is a parameter. A nil
`*Option` is `none`. -/
def parseOptions (DefaultOption : ConnOption) (opts : List (Option ConnOption)) :
    Option ConnOption × Option GoError :=
  if opts.length = 0 ∨ opts.head? = some none then (some DefaultOption, none)
  else if opts.length ≠ 1 then (none, some (errors_New "number of options is more than one"))
  else
    match opts.head? with
    | some (some opt) =>
      let opt1 := { opt with MagicNumber := DefaultOption.MagicNumber }
      let opt2 := if opt1.CodecType = "" then { opt1 with CodecType := DefaultOption.CodecType }
        else opt1
      (some opt2, none)
    | _ => (some DefaultOption, none)

/-- The part of `http.Response` the client reads. -/
structure Response where
  Status : String
  deriving DecidableEq, Repr

/-- How a call of `NewHTTPClient` ends: a run-time panic, the tail call
`return NewClient(conn, opt)`, or `return nil, err`. -/
inductive Bootstrap where
  | panicked
  | viaNewClient
  | failed (err : Option GoError)
  deriving DecidableEq, Repr

/-- Function `NewHTTPClient`. The pair `resp, err` is what `http.ReadResponse` returned and
`connected` is the package constant of that name. The deferred call `resp.Body.Close()` has
its receiver `resp.Body` evaluated by the `defer` statement itself, which dereferences
`resp`. -/
def NewHTTPClient (connected : String) (resp : Option Response) (err : Option GoError) :
    Bootstrap :=
  match resp with
  | none => .panicked
  | some r =>
    if err = none ∧ r.Status = connected then .viaNewClient
    else
      let err1 := if err = none then some (errors_New ("unexpected HTTP response:" ++ r.Status))
        else err
      .failed err1

/-- A Go string; the separator of `XDial` is the one-byte character `@`, so splitting the
characters is splitting the bytes. -/
abbrev GoString := List Char

/-- Library function `strings.Split(s, "@")`: the pieces of `s` between the occurrences of
the separator, in order; `cur` is the piece being read. -/
def splitAtSign (cur : GoString) (s : GoString) : List GoString :=
  match s with
  | [] => [cur]
  | c :: rest => if c = '@' then cur :: splitAtSign [] rest else splitAtSign (cur ++ [c]) rest

/-- Library function `strings.Split(s, "@")`. -/
def strings_Split (s : GoString) : List GoString :=
  splitAtSign [] s

/-- How a call of `XDial` ends: with its own format error, or by handing over to one of the
two dialers with the given network and address. -/
inductive Dispatch where
  | formatError (err : GoError)
  | viaDialHTTP (network : GoString) (address : GoString)
  | viaDial (network : GoString) (address : GoString)
  deriving DecidableEq, Repr

/-- Function `XDial`. -/
def XDial (rpcAddr : GoString) : Dispatch :=
  let parts := strings_Split rpcAddr
  if parts.length ≠ 2 then
    .formatError (.mk ("rpc client err:wrong format \x27" ++ String.mk rpcAddr
      ++ "\x27,expect protocol@addr"))
  else
    let protocol := parts.getD 0 []
    let addr := parts.getD 1 []
    if protocol = "http".toList then .viaDialHTTP "tcp".toList addr
    else .viaDial protocol addr

/-! ## Invariants of the state machine -/

/-- What holds in every state the client reaches: each pending entry holds an allocated call
whose `Seq` is the key; distinct keys hold distinct calls; until the flush has run no pending
call has been sent; no call has been sent twice; no send mentions an unallocated address; and
`shutdown` is set exactly when the flush has run. -/
structure Inv (s : System) : Prop where
  registered : ∀ e ∈ s.world.client.pending, (s.world.calls[e.2]?).map Call.Seq = some e.1
  distinct : (s.world.client.pending.map Prod.snd).Nodup
  undelivered : s.loop ≠ .terminated → ∀ e ∈ s.world.client.pending, sentCount s.world e.2 = 0
  once : ∀ p, sentCount s.world p ≤ 1
  unalloc : ∀ p, s.world.calls.length ≤ p → sentCount s.world p = 0
  flushed : s.loop = .terminated ↔ s.world.client.shutdown = true

/-- The `Seq` field of the call at `p`; 0 when nothing is allocated there. -/
def seqOf (w : World) (p : Ptr) : Nat :=
  match w.calls[p]? with
  | some c => c.Seq
  | none => 0

/-- The ways one step can change the registry, the call records and the sends: `quiet`
changes no pending entry and no `Seq`; `remove` is the cancellation step of `Call`, which
deletes the key of its call; `deliver` deletes a key and
sends the call found there; the three `alloc` cases are `Go` on a client that is down, `Go`
with a successful write, and `Go` with a failed write. -/
inductive Effect (a : Step) (w w1 : World) : Prop where
  | quiet (hp : w1.client.pending = w.client.pending)
      (hs : w1.client.seq = w.client.seq)
      (hl : w1.calls.length = w.calls.length)
      (hq : ∀ q : Ptr, (w1.calls[q]?).map Call.Seq = (w.calls[q]?).map Call.Seq)
      (hm : ∀ p, sentCount w p ≤ sentCount w1 p)
  | remove (q : Ptr) (ctxErr : String) (ha : a = .cancel q ctxErr)
      (hp : w1.client.pending = mapDelete w.client.pending (seqOf w q))
      (hs : w1.client.seq = w.client.seq)
      (hc : w1.calls = w.calls)
      (hsent : w1.sent = w.sent)
  | deliver (k : Nat) (p0 : Ptr) (d : Chan)
      (hget : mapGet w.client.pending k = some p0)
      (hp : w1.client.pending = mapDelete w.client.pending k)
      (hs : w1.client.seq = w.client.seq)
      (hl : w1.calls.length = w.calls.length)
      (hq : ∀ q : Ptr, (w1.calls[q]?).map Call.Seq = (w.calls[q]?).map Call.Seq)
      (hsent : w1.sent = w.sent ++ [(d, p0)])
  | allocDown (c1 : Call) (d : Chan) (hc : w1.calls = w.calls ++ [c1]) (h0 : c1.Seq = 0)
      (hp : w1.client.pending = w.client.pending)
      (hs : w1.client.seq = w.client.seq)
      (hsent : w1.sent = w.sent ++ [(d, w.calls.length)])
  | allocOk (c1 : Call) (hc : w1.calls = w.calls ++ [c1]) (h0 : c1.Seq = w.client.seq)
      (hp : w1.client.pending = mapSet w.client.pending w.client.seq w.calls.length)
      (hs : w1.client.seq = (w.client.seq + 1) % u64)
      (hsent : w1.sent = w.sent)
  | allocFail (c1 : Call) (d : Chan) (hc : w1.calls = w.calls ++ [c1])
      (h0 : c1.Seq = w.client.seq)
      (hp : w1.client.pending = mapDelete w.client.pending w.client.seq)
      (hs : w1.client.seq = (w.client.seq + 1) % u64)
      (hsent : w1.sent = w.sent ++ [(d, w.calls.length)])

/-- What holds of the counter while it has not wrapped: it is at least 1 and at most one more
than the number of calls allocated, every `Seq` stored in a call is below it, and two
different calls never carry the same non-zero `Seq`. -/
structure NoWrap (w : World) : Prop where
  pos : 1 ≤ w.client.seq
  bound : w.client.seq ≤ w.calls.length + 1
  below : ∀ (p : Ptr) (c : Call), w.calls[p]? = some c → c.Seq < w.client.seq
  uniq : ∀ (p q : Ptr) (c d : Call), w.calls[p]? = some c → w.calls[q]? = some d →
    c.Seq = d.Seq → c.Seq ≠ 0 → p = q

/-! ## Example states -/

/-- Registry operations: two registrations, the first one removed in between, then `Close`
and a third registration, which fails. -/
def registryOps : List RegOp :=
  [.registerCall ⟨0, "Arith.Add", 5, some 0, none, ⟨0, 10⟩⟩, .removeCall 1,
   .registerCall ⟨0, "Arith.Mul", 6, some 1, none, ⟨1, 10⟩⟩, .close none,
   .registerCall ⟨0, "Arith.Sub", 7, some 2, none, ⟨2, 10⟩⟩]

/-- An execution: two synchronous calls are submitted and written. -/
def twoCalls : List Step :=
  [.callStart "Arith.Add" 5 (some 0) none, .callStart "Arith.Mul" 6 (some 1) none]

/-- An execution after a cancellation: a third call is submitted and the reply to the second
call arrives. -/
def afterCancel : List Step :=
  [.go "Arith.Sub" 7 (some 2) none none, .recv (.ok ⟨"Arith.Mul", 2, ""⟩) ⟨30, none⟩]

/-- A client with two calls pending, as `twoCalls` leaves it. -/
def twoPending : World :=
  (run (initSystem none [0, 0, 0]) twoCalls).world

/-- An execution: three calls are submitted with the same caller-made channel of capacity 1
as their `Done`, and written. -/
def sharedChanCalls : List Step :=
  [.go "Arith.Add" 5 (some 0) (some ⟨7, 1⟩) none, .go "Arith.Mul" 6 (some 1) (some ⟨7, 1⟩) none,
   .go "Arith.Sub" 7 (some 2) (some ⟨7, 1⟩) none]

/-- A client with three calls pending on one channel of capacity 1, as `sharedChanCalls`
leaves it. -/
def sharedPending : World :=
  (run (initSystem none [0, 0, 0]) sharedChanCalls).world

/-! ## Lemmas on the map operations -/

theorem mapGet_mapDelete_self (m : PendingMap) (k : Nat) : mapGet (mapDelete m k) k = none := by
  induction m with
  | nil => rfl
  | cons e rest ih =>
    obtain ⟨k1, v⟩ := e
    by_cases hk : k1 = k
    · simpa [mapDelete, hk] using ih
    · simpa [mapDelete, mapGet, hk] using ih

theorem mapGet_mapDelete_ne (m : PendingMap) (k j : Nat) (h : j ≠ k) :
    mapGet (mapDelete m k) j = mapGet m j := by
  induction m with
  | nil => rfl
  | cons e rest ih =>
    obtain ⟨k1, v⟩ := e
    by_cases hk : k1 = k
    · subst hk
      have hj : ¬ k1 = j := fun hh => h hh.symm
      simpa [mapDelete, mapGet, hj] using ih
    · by_cases hj : k1 = j
      · subst hj
        simp [mapDelete, mapGet, hk]
      · simpa [mapDelete, mapGet, hk, hj] using ih

theorem mapGet_mem (m : PendingMap) (k : Nat) (p : Ptr) (h : mapGet m k = some p) :
    (k, p) ∈ m := by
  induction m with
  | nil => simp [mapGet] at h
  | cons e rest ih =>
    obtain ⟨k1, v⟩ := e
    by_cases hk : k1 = k
    · simp [mapGet, hk] at h
      simp [hk, h]
    · simp [mapGet, hk] at h
      exact List.mem_cons_of_mem _ (ih h)

theorem mapGet_none_of_not_mem (m : PendingMap) (k : Nat) (h : ∀ e ∈ m, e.1 ≠ k) :
    mapGet m k = none := by
  induction m with
  | nil => rfl
  | cons e rest ih =>
    obtain ⟨k1, v⟩ := e
    have hk : k1 ≠ k := h (k1, v) (List.mem_cons_self _ _)
    simp only [mapGet, hk, if_false]
    exact ih (fun e he => h e (List.mem_cons_of_mem _ he))

theorem mapDelete_sublist (m : PendingMap) (k : Nat) : (mapDelete m k).Sublist m :=
  List.filter_sublist m

theorem mem_mapDelete (m : PendingMap) (k : Nat) (e : Nat × Ptr) :
    e ∈ mapDelete m k ↔ e ∈ m ∧ e.1 ≠ k := by
  simp [mapDelete]

theorem mapDelete_mapSet (m : PendingMap) (k : Nat) (v : Ptr) :
    mapDelete (mapSet m k v) k = mapDelete m k := by
  simp [mapSet, mapDelete, List.filter_append, List.filter_filter]

theorem mem_mapSet (m : PendingMap) (k : Nat) (v : Ptr) (e : Nat × Ptr) :
    e ∈ mapSet m k v ↔ (e ∈ m ∧ e.1 ≠ k) ∨ e = (k, v) := by
  simp [mapSet, mapDelete]

theorem mapGet_mapSet_self (m : PendingMap) (k : Nat) (v : Ptr) :
    mapGet (mapSet m k v) k = some v := by
  have h : ∀ l : PendingMap, (∀ e ∈ l, e.1 ≠ k) → mapGet (l ++ [(k, v)]) k = some v := by
    intro l
    induction l with
    | nil => intro _; simp [mapGet]
    | cons e rest ih =>
      intro hl
      obtain ⟨k1, v1⟩ := e
      have hk : k1 ≠ k := hl (k1, v1) (List.mem_cons_self _ _)
      simp only [List.cons_append, mapGet, hk, if_false]
      exact ih (fun e he => hl e (List.mem_cons_of_mem _ he))
  exact h _ (fun e he => ((mem_mapDelete m k e).1 he).2)

theorem mapGet_mapSet_ne (m : PendingMap) (k j : Nat) (v : Ptr) (h : j ≠ k) :
    mapGet (mapSet m k v) j = mapGet m j := by
  have h1 : ∀ l : PendingMap, mapGet (l ++ [(k, v)]) j = mapGet l j := by
    intro l
    induction l with
    | nil =>
      have hkj : ¬ k = j := fun hh => h hh.symm
      simp [mapGet, hkj]
    | cons e rest ih =>
      obtain ⟨k1, v1⟩ := e
      by_cases hk : k1 = j
      · simp [mapGet, hk]
      · simpa [mapGet, hk] using ih
  rw [mapSet, h1, mapGet_mapDelete_ne m k j h]

/-! ## Lemmas on the address split -/

theorem splitAtSign_length (s cur : GoString) :
    (splitAtSign cur s).length = s.count '@' + 1 := by
  induction s generalizing cur with
  | nil => simp [splitAtSign]
  | cons c rest ih =>
    by_cases hc : c = '@'
    · simp [splitAtSign, hc, ih]
    · have hc2 : ¬ ((c == '@') = true) := by simpa using hc
      simp [splitAtSign, hc, ih, List.count_cons, hc2]

theorem splitAtSign_no_sep (s cur : GoString) (h : '@' ∉ s) :
    splitAtSign cur s = [cur ++ s] := by
  induction s generalizing cur with
  | nil => simp [splitAtSign]
  | cons c rest ih =>
    have hc : c ≠ '@' := fun hh => h (by simp [hh])
    have hr : '@' ∉ rest := fun hh => h (List.mem_cons_of_mem _ hh)
    simp [splitAtSign, hc, ih _ hr]

theorem splitAtSign_sep (p a cur : GoString) (h : '@' ∉ p) :
    splitAtSign cur (p ++ '@' :: a) = (cur ++ p) :: splitAtSign [] a := by
  induction p generalizing cur with
  | nil => simp [splitAtSign]
  | cons c rest ih =>
    have hc : c ≠ '@' := fun hh => h (by simp [hh])
    have hr : '@' ∉ rest := fun hh => h (List.mem_cons_of_mem _ hh)
    simp [splitAtSign, hc, ih _ hr]

theorem count_one_split (s : GoString) (h : s.count '@' = 1) :
    ∃ p a, s = p ++ '@' :: a ∧ '@' ∉ p ∧ '@' ∉ a := by
  have hmem : '@' ∈ s := List.count_pos_iff.mp (by omega)
  obtain ⟨p, a, hs, hp⟩ := List.eq_append_cons_of_mem hmem
  refine ⟨p, a, hs, hp, ?_⟩
  intro ha
  have h1 : 0 < a.count '@' := List.count_pos_iff.mpr ha
  rw [hs] at h
  simp [List.count_append, List.count_cons] at h
  omega

/-! ## Lemmas on the record and channel operations -/

theorem getElem?_lt {α : Type} (l : List α) (p : Nat) (c : α) (h : l[p]? = some c) :
    p < l.length := by
  rcases List.getElem?_eq_some_iff.mp h with ⟨h1, _⟩
  exact h1

@[simp] theorem updCall_client (w : World) (p : Ptr) (f : Call → Call) :
    (updCall w p f).client = w.client := by
  unfold updCall; split <;> rfl

@[simp] theorem updCall_sent (w : World) (p : Ptr) (f : Call → Call) :
    (updCall w p f).sent = w.sent := by
  unfold updCall; split <;> rfl

@[simp] theorem updCall_slots (w : World) (p : Ptr) (f : Call → Call) :
    (updCall w p f).slots = w.slots := by
  unfold updCall; split <;> rfl

@[simp] theorem updCall_ccLog (w : World) (p : Ptr) (f : Call → Call) :
    (updCall w p f).ccLog = w.ccLog := by
  unfold updCall; split <;> rfl

@[simp] theorem updCall_chans (w : World) (p : Ptr) (f : Call → Call) :
    (updCall w p f).chans = w.chans := by
  unfold updCall; split <;> rfl

@[simp] theorem updCall_length (w : World) (p : Ptr) (f : Call → Call) :
    (updCall w p f).calls.length = w.calls.length := by
  unfold updCall; split <;> simp

theorem updCall_getElem? (w : World) (p q : Ptr) (f : Call → Call) :
    (updCall w p f).calls[q]? = if q = p then (w.calls[p]?).map f else w.calls[q]? := by
  unfold updCall
  cases hc : w.calls[p]? with
  | none =>
    by_cases hq : q = p
    · subst hq; simp [hc]
    · simp [hq]
  | some c =>
    have hlt := getElem?_lt _ _ _ hc
    by_cases hq : q = p
    · subst hq; simp [List.getElem?_set, hlt]
    · have hq2 : ¬ p = q := fun hh => hq hh.symm
      simp [List.getElem?_set, hq, hq2]

@[simp] theorem done_client (w : World) (p : Ptr) : (Call.done w p).client = w.client := by
  unfold Call.done; split <;> rfl

@[simp] theorem done_calls (w : World) (p : Ptr) : (Call.done w p).calls = w.calls := by
  unfold Call.done; split <;> rfl

@[simp] theorem done_slots (w : World) (p : Ptr) : (Call.done w p).slots = w.slots := by
  unfold Call.done; split <;> rfl

@[simp] theorem done_ccLog (w : World) (p : Ptr) : (Call.done w p).ccLog = w.ccLog := by
  unfold Call.done; split <;> rfl

@[simp] theorem done_chans (w : World) (p : Ptr) : (Call.done w p).chans = w.chans := by
  unfold Call.done; split <;> rfl

theorem done_sent (w : World) (p : Ptr) :
    (Call.done w p).sent =
      w.sent ++ ((w.calls[p]?).map (fun c => (c.Done, p))).toList := by
  unfold Call.done
  cases hc : w.calls[p]? <;> simp

theorem flushCall_getElem? (err : Option GoError) (w : World) (e : Nat × Ptr) (q : Ptr) :
    (flushCall err w e).calls[q]? =
      if q = e.2 then (w.calls[q]?).map (Call.setError err) else w.calls[q]? := by
  unfold flushCall
  rw [done_calls, updCall_getElem?]
  by_cases hq : q = e.2
  · subst hq; simp
  · simp [hq]

theorem flushCall_sent (err : Option GoError) (w : World) (e : Nat × Ptr) :
    (flushCall err w e).sent =
      w.sent ++ ((w.calls[e.2]?).map (fun c => (c.Done, e.2))).toList := by
  unfold flushCall
  rw [done_sent, updCall_sent, updCall_getElem?]
  cases w.calls[e.2]? <;> simp [Call.setError]

/-- Effect of the `range` loop of `terminateCalls` over the entries `l`. -/
theorem flush_fold (err : Option GoError) (l : PendingMap) (acc : World) :
    (l.foldl (flushCall err) acc).client = acc.client ∧
    (l.foldl (flushCall err) acc).slots = acc.slots ∧
    (l.foldl (flushCall err) acc).ccLog = acc.ccLog ∧
    (l.foldl (flushCall err) acc).chans = acc.chans ∧
    (l.foldl (flushCall err) acc).calls.length = acc.calls.length ∧
    (∀ q, (l.foldl (flushCall err) acc).calls[q]? =
        if q ∈ l.map Prod.snd then (acc.calls[q]?).map (Call.setError err)
        else acc.calls[q]?) ∧
    (l.foldl (flushCall err) acc).sent =
      acc.sent ++ l.filterMap (fun e => (acc.calls[e.2]?).map (fun c => (c.Done, e.2))) := by
  induction l generalizing acc with
  | nil => simp
  | cons e rest ih =>
    obtain ⟨h1, h2, h3, h4, h5, h6, h7⟩ := ih (flushCall err acc e)
    obtain ⟨k, v⟩ := e
    simp only [List.foldl_cons]
    refine ⟨by rw [h1]; simp [flushCall], by rw [h2]; simp [flushCall],
      by rw [h3]; simp [flushCall], by rw [h4]; simp [flushCall],
      by rw [h5]; simp [flushCall], ?_, ?_⟩
    · intro q
      rw [h6 q, flushCall_getElem?]
      simp only [List.map_cons, List.mem_cons]
      by_cases hq : q = v
      · subst hq
        by_cases hr : q ∈ rest.map Prod.snd
        · rw [if_pos hr, if_pos rfl, if_pos (Or.inl rfl)]
          cases acc.calls[q]? <;> simp [Call.setError]
        · rw [if_neg hr, if_pos rfl, if_pos (Or.inl rfl)]
      · by_cases hr : q ∈ rest.map Prod.snd
        · rw [if_pos hr, if_neg hq, if_pos (Or.inr hr)]
        · rw [if_neg hr, if_neg hq, if_neg (fun hh => hh.elim hq hr)]
    · rw [h7, flushCall_sent]
      have hfm : List.filterMap (fun e1 : Nat × Ptr =>
            ((flushCall err acc (k, v)).calls[e1.2]?).map (fun c => (c.Done, e1.2))) rest =
          List.filterMap (fun e1 : Nat × Ptr =>
            (acc.calls[e1.2]?).map (fun c => (c.Done, e1.2))) rest := by
        apply List.filterMap_congr
        intro e1 _
        rw [flushCall_getElem?]
        by_cases hq : e1.2 = v
        · rw [if_pos hq]
          cases acc.calls[e1.2]? <;> simp [Call.setError]
        · rw [if_neg hq]
      rw [hfm]
      cases hc : acc.calls[v]? <;> simp [List.filterMap_cons, hc]

theorem count_flush (calls : List Call) (l : PendingMap) (ch : Chan) (p : Ptr) :
    (l.filterMap (fun e => (calls[e.2]?).map (fun c => (c.Done, e.2)))).count (ch, p) =
      if (calls[p]?).map (fun c => c.Done) = some ch then (l.map Prod.snd).count p else 0 := by
  induction l with
  | nil => simp
  | cons e rest ih =>
    cases hc : calls[e.2]? with
    | none =>
      simp only [List.filterMap_cons, hc, Option.map_none', ih, List.map_cons]
      by_cases hp : e.2 = p
      · rw [← hp, hc]; simp
      · have hp2 : ¬ ((e.2 == p) = true) := by simpa using hp
        simp [List.count_cons, hp2]
    | some c =>
      simp only [List.filterMap_cons, hc, Option.map_some', List.count_cons, ih, List.map_cons]
      by_cases hp : e.2 = p
      · rw [← hp, hc]
        by_cases hd : c.Done = ch
        · simp [hd]
        · simp [hd]
      · have hp2 : ¬ ((c.Done, e.2) = (ch, p)) := fun hh => hp (Prod.ext_iff.mp hh).2
        have hp3 : ¬ ((e.2 == p) = true) := by simpa using hp
        simp [hp2, hp3]

/-- Effect of `terminateCalls` on every component of the memory. -/
theorem terminateCalls_effect (w : World) (err : Option GoError) :
    (terminateCalls w err).client = { w.client with shutdown := true } ∧
    (terminateCalls w err).slots = w.slots ∧
    (terminateCalls w err).ccLog = w.ccLog ∧
    (terminateCalls w err).chans = w.chans ∧
    (terminateCalls w err).calls.length = w.calls.length ∧
    (∀ q, (terminateCalls w err).calls[q]? =
        if q ∈ w.client.pending.map Prod.snd then (w.calls[q]?).map (Call.setError err)
        else w.calls[q]?) ∧
    (terminateCalls w err).sent =
      w.sent ++ w.client.pending.filterMap
        (fun e => (w.calls[e.2]?).map (fun c => (c.Done, e.2))) := by
  have h := flush_fold err w.client.pending
    { w with client := { w.client with shutdown := true } }
  exact h

theorem sentOn_terminateCalls (w : World) (err : Option GoError) (ch : Chan) (p : Ptr) :
    sentOn (terminateCalls w err) ch p =
      sentOn w ch p +
        if (w.calls[p]?).map (fun c => c.Done) = some ch
        then (w.client.pending.map Prod.snd).count p else 0 := by
  unfold sentOn
  rw [(terminateCalls_effect w err).2.2.2.2.2.2, List.count_append, count_flush]

theorem sentCount_terminateCalls (w : World) (err : Option GoError) (p : Ptr)
    (hp : p < w.calls.length) :
    sentCount (terminateCalls w err) p =
      sentCount w p + (w.client.pending.map Prod.snd).count p := by
  unfold sentCount
  rw [(terminateCalls_effect w err).2.2.2.2.2.2, List.countP_append]
  congr 1
  generalize w.client.pending = l
  induction l with
  | nil => simp
  | cons e rest ih =>
    obtain ⟨k, v⟩ := e
    by_cases hv : v = p
    · subst hv
      obtain ⟨c, hc⟩ : ∃ c, w.calls[v]? = some c := ⟨w.calls[v], List.getElem?_eq_getElem hp⟩
      simp [List.filterMap_cons, hc, List.countP_cons, ih]
    · have hv2 : ¬ ((v == p) = true) := by simpa using hv
      cases hc : w.calls[v]? with
      | none => simp [List.filterMap_cons, hc, ih, List.count_cons, hv2]
      | some c => simp [List.filterMap_cons, hc, List.countP_cons, ih, List.count_cons, hv, hv2]

theorem sentCount_terminateCalls_out (w : World) (err : Option GoError) (p : Ptr)
    (hp : w.calls.length ≤ p) :
    sentCount (terminateCalls w err) p = sentCount w p := by
  unfold sentCount
  rw [(terminateCalls_effect w err).2.2.2.2.2.2, List.countP_append]
  have hz : List.countP (fun e : Chan × Ptr => decide (e.2 = p))
      (w.client.pending.filterMap (fun e => (w.calls[e.2]?).map (fun c => (c.Done, e.2)))) = 0 := by
    rw [List.countP_eq_zero]
    intro a ha
    rw [List.mem_filterMap] at ha
    obtain ⟨e, _, he⟩ := ha
    cases hc : w.calls[e.2]? with
    | none => simp [hc] at he
    | some c =>
      have hlt := getElem?_lt _ _ _ hc
      simp [hc] at he
      rw [← he]
      have hne : ¬ e.2 = p := by
        intro hh
        rw [hh] at hlt
        exact absurd hlt (Nat.not_lt.mpr hp)
      simp [hne]
  rw [hz]
  rfl

/-! ## Effect of each operation on the memory -/

theorem set_concat {α : Type} (l : List α) (a b : α) : (l ++ [a]).set l.length b = l ++ [b] := by
  induction l with
  | nil => rfl
  | cons x rest ih => simp [ih]

theorem mapGet_none_keys (m : PendingMap) (k : Nat) (h : mapGet m k = none) :
    ∀ e ∈ m, e.1 ≠ k := by
  induction m with
  | nil => intro e he; simp at he
  | cons e rest ih =>
    obtain ⟨k1, v⟩ := e
    by_cases hk : k1 = k
    · simp [mapGet, hk] at h
    · simp only [mapGet, hk, if_false] at h
      intro e he
      rcases List.mem_cons.mp he with h1 | h1
      · rw [h1]; exact hk
      · exact ih h e h1

theorem mapDelete_of_get_none (m : PendingMap) (k : Nat) (h : mapGet m k = none) :
    mapDelete m k = m := by
  unfold mapDelete
  rw [List.filter_eq_self]
  intro e he
  simpa using mapGet_none_keys m k h e he

theorem set_self {α : Type} (l : List α) (p : Nat) (c : α) (h : l[p]? = some c) :
    l.set p c = l := by
  apply List.ext_getElem?
  intro q
  by_cases hq : p = q
  · subst hq
    simp [List.getElem?_set, getElem?_lt l p c h, h]
  · simp [List.getElem?_set, hq]

theorem goWith_ptr (w : World) (sm : String) (args : Payload) (reply : Option Addr)
    (done : Chan) (wr : Option GoError) : (goWith w sm args reply done wr).2 = w.calls.length :=
  rfl

theorem goWith_down (w : World) (sm : String) (args : Payload) (reply : Option Addr)
    (done : Chan) (wr : Option GoError)
    (hdown : (w.client.closing || w.client.shutdown) = true) :
    (goWith w sm args reply done wr).1 =
      { w with calls := w.calls ++ [Call.setError (some .ErrShutdown) (newCall sm args reply done)],
               sent := w.sent ++ [(done, w.calls.length)] } := by
  simp [goWith, send, registerCall, hdown, updCall, Call.done, set_concat, Call.setError,
    newCall]

theorem goWith_ok (w : World) (sm : String) (args : Payload) (reply : Option Addr)
    (done : Chan) (hup : (w.client.closing || w.client.shutdown) = false) :
    (goWith w sm args reply done none).1 =
      { w with calls := w.calls ++ [Call.setSeq w.client.seq (newCall sm args reply done)],
               client := { w.client with
                 pending := mapSet w.client.pending w.client.seq w.calls.length,
                 seq := (w.client.seq + 1) % u64,
                 header := ⟨sm, w.client.seq, ""⟩ },
               ccLog := w.ccLog ++ [.write ⟨sm, w.client.seq, ""⟩ args] } := by
  simp [goWith, send, registerCall, hup, updCall, set_concat, Call.setSeq, newCall]

theorem goWith_fail (w : World) (sm : String) (args : Payload) (reply : Option Addr)
    (done : Chan) (err : GoError) (hup : (w.client.closing || w.client.shutdown) = false) :
    (goWith w sm args reply done (some err)).1 =
      { w with calls := w.calls ++
                 [Call.setError (some err) (Call.setSeq w.client.seq (newCall sm args reply done))],
               client := { w.client with
                 pending := mapDelete w.client.pending w.client.seq,
                 seq := (w.client.seq + 1) % u64,
                 header := ⟨sm, w.client.seq, ""⟩ },
               sent := w.sent ++ [(done, w.calls.length)],
               ccLog := w.ccLog ++ [.write ⟨sm, w.client.seq, ""⟩ args] } := by
  simp [goWith, send, registerCall, hup, updCall, Call.done, set_concat, Call.setSeq,
    Call.setError, newCall, removeCall, mapGet_mapSet_self, mapDelete_mapSet]

theorem receiveIter_error (w : World) (e : GoError) (rb : BodyRead) :
    receiveIter w (.error e) rb = ({ w with ccLog := w.ccLog ++ [.readHeader] }, some e) :=
  rfl

theorem receiveIter_unknown (w : World) (h : Header) (rb : BodyRead)
    (hget : mapGet w.client.pending h.Seq = none) :
    receiveIter w (.ok h) rb =
      ({ w with ccLog := w.ccLog ++ [.readHeader, .readBody none] }, rb.err) := by
  simp [receiveIter, removeCall, hget, ReadBody, mapDelete_of_get_none _ _ hget]

theorem receiveIter_known (w : World) (h : Header) (rb : BodyRead) (p : Ptr) (c : Call)
    (hget : mapGet w.client.pending h.Seq = some p) (hc : w.calls[p]? = some c) :
    receiveIter w (.ok h) rb =
      ({ w with
          client := { w.client with pending := mapDelete w.client.pending h.Seq },
          calls := w.calls.set p
            (if h.Error ≠ "" then Call.setError (some (fmt_Errorf h.Error)) c
             else match rb.err with
               | some e => Call.setError (some (fmt_Errorf ("reading body" ++ e.Error))) c
               | none => c),
          slots := if h.Error ≠ "" then w.slots
            else match c.Reply with
              | some a => w.slots.set a rb.value
              | none => w.slots,
          sent := w.sent ++ [(c.Done, p)],
          ccLog := w.ccLog ++
            [.readHeader, .readBody (if h.Error ≠ "" then none else c.Reply)] },
        rb.err) := by
  have hlt := getElem?_lt _ _ _ hc
  by_cases he : h.Error = ""
  · cases hrb : rb.err with
    | none =>
      cases hr : c.Reply <;>
        simp [receiveIter, removeCall, hget, he, ReadBody, Call.done, updCall, hc, hrb,
          Call.setError, hr, set_self _ _ _ hc]
    | some e =>
      cases hr : c.Reply <;>
        simp [receiveIter, removeCall, hget, he, ReadBody, Call.done, updCall, hc, hrb,
          List.getElem?_set, hlt, Call.setError, hr]
  · simp [receiveIter, removeCall, hget, he, ReadBody, Call.done, updCall, hc,
      List.getElem?_set, hlt, Call.setError]

/-! ## Preservation of the invariant -/

theorem sentCount_snoc (w w1 : World) (d : Chan) (p q : Ptr)
    (h : w1.sent = w.sent ++ [(d, p)]) :
    sentCount w1 q = sentCount w q + if q = p then 1 else 0 := by
  unfold sentCount
  rw [h, List.countP_append]
  by_cases hq : q = p
  · subst hq; simp
  · have hq2 : ¬ p = q := fun hh => hq hh.symm
    simp [hq, hq2]

theorem sentCount_same (w w1 : World) (q : Ptr) (h : w1.sent = w.sent) :
    sentCount w1 q = sentCount w q := by
  unfold sentCount
  rw [h]

theorem registered_lt (w : World) (e : Nat × Ptr)
    (h : (w.calls[e.2]?).map Call.Seq = some e.1) : e.2 < w.calls.length := by
  cases hc : w.calls[e.2]? with
  | none => simp [hc] at h
  | some c => exact getElem?_lt _ _ _ hc

/-- A step that only removes pending entries and neither sends nor allocates keeps the
invariant. -/
theorem inv_frame (w w1 : World) (l l1 : LoopState) (hinv : Inv ⟨w, l⟩)
    (hsub : w1.client.pending.Sublist w.client.pending)
    (hlen : w1.calls.length = w.calls.length)
    (hseq : ∀ q : Ptr, (w1.calls[q]?).map Call.Seq = (w.calls[q]?).map Call.Seq)
    (hsent : w1.sent = w.sent)
    (hshut : w1.client.shutdown = w.client.shutdown)
    (hl : l1 = .terminated ↔ l = .terminated) : Inv ⟨w1, l1⟩ := by
  constructor
  · intro e he
    show (w1.calls[e.2]?).map Call.Seq = some e.1
    rw [hseq]
    exact hinv.registered e (hsub.subset he)
  · exact hinv.distinct.sublist (hsub.map Prod.snd)
  · intro hne e he
    show sentCount w1 e.2 = 0
    rw [sentCount_same w w1 _ hsent]
    exact hinv.undelivered (fun hh => hne (hl.2 hh)) e (hsub.subset he)
  · intro p
    show sentCount w1 p ≤ 1
    rw [sentCount_same w w1 _ hsent]
    exact hinv.once p
  · intro p hp
    show sentCount w1 p = 0
    rw [sentCount_same w w1 _ hsent]
    exact hinv.unalloc p (by rw [← hlen]; exact hp)
  · show l1 = .terminated ↔ w1.client.shutdown = true
    rw [hl, hshut]
    exact hinv.flushed

theorem inv_removeCall (w : World) (l : LoopState) (k : Nat) (hinv : Inv ⟨w, l⟩) :
    Inv ⟨(removeCall w k).1, l⟩ :=
  inv_frame w _ l l hinv (mapDelete_sublist _ _) rfl (fun _ => rfl) rfl rfl Iff.rfl

theorem inv_close (w : World) (l : LoopState) (ce : Option GoError) (hinv : Inv ⟨w, l⟩) :
    Inv ⟨(Client.Close w ce).1, l⟩ := by
  unfold Client.Close
  split
  · exact hinv
  · exact inv_frame w _ l l hinv (List.Sublist.refl _) rfl (fun _ => rfl) rfl rfl Iff.rfl

theorem inv_chans (w : World) (l : LoopState) (n : Nat) (hinv : Inv ⟨w, l⟩) :
    Inv ⟨{ w with chans := n }, l⟩ :=
  inv_frame w _ l l hinv (List.Sublist.refl _) rfl (fun _ => rfl) rfl rfl Iff.rfl

theorem getElem?_concat_old {α : Type} (l : List α) (a : α) (q : Nat) (h : q < l.length) :
    (l ++ [a])[q]? = l[q]? := by
  rw [List.getElem?_append_left h]

/-- Allocating a call and sending it at once, without leaving it in the pending table. -/
theorem inv_alloc_send (w w1 : World) (l : LoopState) (c1 : Call) (d : Chan)
    (hinv : Inv ⟨w, l⟩) (hcalls : w1.calls = w.calls ++ [c1])
    (hsub : w1.client.pending.Sublist w.client.pending)
    (hsent : w1.sent = w.sent ++ [(d, w.calls.length)])
    (hshut : w1.client.shutdown = w.client.shutdown) : Inv ⟨w1, l⟩ := by
  constructor
  · intro e he
    show (w1.calls[e.2]?).map Call.Seq = some e.1
    have hreg := hinv.registered e (hsub.subset he)
    rw [hcalls, getElem?_concat_old _ _ _ (registered_lt w e hreg)]
    exact hreg
  · exact hinv.distinct.sublist (hsub.map Prod.snd)
  · intro hne e he
    show sentCount w1 e.2 = 0
    have hreg := hinv.registered e (hsub.subset he)
    have hlt := registered_lt w e hreg
    have hne2 : ¬ e.2 = w.calls.length := Nat.ne_of_lt hlt
    rw [sentCount_snoc w w1 d _ _ hsent, if_neg hne2]
    exact hinv.undelivered hne e (hsub.subset he)
  · intro p
    show sentCount w1 p ≤ 1
    rw [sentCount_snoc w w1 d _ _ hsent]
    by_cases hp : p = w.calls.length
    · rw [if_pos hp, hinv.unalloc p (Nat.le_of_eq hp.symm)]
    · rw [if_neg hp]
      exact hinv.once p
  · intro p hp
    show sentCount w1 p = 0
    have hlen : w1.calls.length = w.calls.length + 1 := by rw [hcalls]; simp
    have hp1 : w.calls.length + 1 ≤ p := by rw [← hlen]; exact hp
    have hne2 : ¬ p = w.calls.length := by omega
    have hp2 : w.calls.length ≤ p := by omega
    rw [sentCount_snoc w w1 d _ _ hsent, if_neg hne2]
    exact hinv.unalloc p hp2
  · show l = .terminated ↔ w1.client.shutdown = true
    rw [hshut]
    exact hinv.flushed

/-- Allocating a call and leaving it in the pending table under its `Seq`. -/
theorem inv_alloc_reg (w w1 : World) (l : LoopState) (c1 : Call)
    (hinv : Inv ⟨w, l⟩) (hcalls : w1.calls = w.calls ++ [c1])
    (hpend : w1.client.pending = mapSet w.client.pending c1.Seq w.calls.length)
    (hsent : w1.sent = w.sent)
    (hshut : w1.client.shutdown = w.client.shutdown) : Inv ⟨w1, l⟩ := by
  have hmem : ∀ e ∈ w1.client.pending,
      (e ∈ w.client.pending ∧ e.1 ≠ c1.Seq) ∨ e = (c1.Seq, w.calls.length) := by
    intro e he
    rw [hpend] at he
    exact (mem_mapSet _ _ _ e).1 he
  constructor
  · intro e he
    show (w1.calls[e.2]?).map Call.Seq = some e.1
    rcases hmem e he with ⟨h1, _⟩ | h1
    · have hreg := hinv.registered e h1
      rw [hcalls, getElem?_concat_old _ _ _ (registered_lt w e hreg)]
      exact hreg
    · rw [h1, hcalls]
      simp
  · show (w1.client.pending.map Prod.snd).Nodup
    rw [hpend, mapSet, List.map_append]
    apply List.Nodup.append
    · exact hinv.distinct.sublist ((mapDelete_sublist _ _).map Prod.snd)
    · simp
    · intro a ha1 ha2
      simp only [List.map_cons, List.map_nil, List.mem_singleton] at ha2
      obtain ⟨e, he, hea⟩ := List.mem_map.mp ha1
      have hreg := hinv.registered e ((mapDelete_sublist _ _).subset he)
      have hlt := registered_lt w e hreg
      rw [hea, ha2] at hlt
      exact Nat.lt_irrefl _ hlt
  · intro hne e he
    show sentCount w1 e.2 = 0
    rw [sentCount_same w w1 _ hsent]
    rcases hmem e he with ⟨h1, _⟩ | h1
    · exact hinv.undelivered hne e h1
    · rw [h1]
      exact hinv.unalloc _ (Nat.le_refl _)
  · intro p
    show sentCount w1 p ≤ 1
    rw [sentCount_same w w1 _ hsent]
    exact hinv.once p
  · intro p hp
    show sentCount w1 p = 0
    have hlen : w1.calls.length = w.calls.length + 1 := by rw [hcalls]; simp
    have hp1 : w1.calls.length ≤ p := hp
    have hp2 : w.calls.length ≤ p := by omega
    rw [sentCount_same w w1 _ hsent]
    exact hinv.unalloc p hp2
  · show l = .terminated ↔ w1.client.shutdown = true
    rw [hshut]
    exact hinv.flushed

theorem inv_goWith (w : World) (l : LoopState) (sm : String) (args : Payload)
    (reply : Option Addr) (done : Chan) (wr : Option GoError) (hinv : Inv ⟨w, l⟩) :
    Inv ⟨(goWith w sm args reply done wr).1, l⟩ := by
  cases hd : (w.client.closing || w.client.shutdown) with
  | true =>
    rw [goWith_down w sm args reply done wr hd]
    exact inv_alloc_send w _ l _ done hinv rfl (List.Sublist.refl _) rfl rfl
  | false =>
    cases wr with
    | none =>
      rw [goWith_ok w sm args reply done hd]
      exact inv_alloc_reg w _ l _ hinv rfl rfl rfl rfl
    | some err =>
      rw [goWith_fail w sm args reply done err hd]
      exact inv_alloc_send w _ l _ done hinv rfl (mapDelete_sublist _ _) rfl rfl

/-- Delivering the call found under a key and removing the key. -/
theorem inv_deliver (w w1 : World) (l l1 : LoopState) (k : Nat) (p : Ptr) (d : Chan)
    (hinv : Inv ⟨w, l⟩) (hl : l ≠ .terminated) (hl1 : l1 ≠ .terminated)
    (hget : mapGet w.client.pending k = some p)
    (hpend : w1.client.pending = mapDelete w.client.pending k)
    (hlen : w1.calls.length = w.calls.length)
    (hseq : ∀ q : Ptr, (w1.calls[q]?).map Call.Seq = (w.calls[q]?).map Call.Seq)
    (hsent : w1.sent = w.sent ++ [(d, p)])
    (hshut : w1.client.shutdown = w.client.shutdown) : Inv ⟨w1, l1⟩ := by
  have hkp : (k, p) ∈ w.client.pending := mapGet_mem _ _ _ hget
  have hsub : w1.client.pending.Sublist w.client.pending := by
    rw [hpend]; exact mapDelete_sublist _ _
  constructor
  · intro e he
    show (w1.calls[e.2]?).map Call.Seq = some e.1
    rw [hseq]
    exact hinv.registered e (hsub.subset he)
  · exact hinv.distinct.sublist (hsub.map Prod.snd)
  · intro _ e he
    show sentCount w1 e.2 = 0
    rw [hpend] at he
    obtain ⟨he1, he2⟩ := (mem_mapDelete _ _ e).1 he
    have hne : ¬ e.2 = p := by
      intro hh
      have heq : e = (k, p) :=
        List.inj_on_of_nodup_map hinv.distinct he1 hkp hh
      exact he2 (by rw [heq])
    rw [sentCount_snoc w w1 d _ _ hsent, if_neg hne]
    exact hinv.undelivered hl e he1
  · intro q
    show sentCount w1 q ≤ 1
    rw [sentCount_snoc w w1 d _ _ hsent]
    by_cases hq : q = p
    · rw [if_pos hq, hq]
      have h0 : sentCount w p = 0 := hinv.undelivered hl (k, p) hkp
      rw [h0]
    · rw [if_neg hq]
      exact hinv.once q
  · intro q hq
    show sentCount w1 q = 0
    have hlt : p < w.calls.length := registered_lt w (k, p) (hinv.registered (k, p) hkp)
    have hq2 : w.calls.length ≤ q := by rw [← hlen]; exact hq
    have hne : ¬ q = p := fun hh => absurd hlt (Nat.not_lt.mpr (hh ▸ hq2))
    rw [sentCount_snoc w w1 d _ _ hsent, if_neg hne]
    exact hinv.unalloc q hq2
  · show l1 = .terminated ↔ w1.client.shutdown = true
    rw [hshut]
    constructor
    · intro hh; exact absurd hh hl1
    · intro hh; exact absurd (hinv.flushed.2 hh) hl

theorem set_map_seq (calls : List Call) (p q : Ptr) (c c1 : Call)
    (hc : calls[p]? = some c) (hseq : c1.Seq = c.Seq) :
    ((calls.set p c1)[q]?).map Call.Seq = (calls[q]?).map Call.Seq := by
  by_cases hq : p = q
  · subst hq
    simp [List.getElem?_set, getElem?_lt _ _ _ hc, hc, hseq]
  · simp [List.getElem?_set, hq]

theorem inv_receiveIter (w : World) (rh : Except GoError Header) (rb : BodyRead)
    (l1 : LoopState) (hl1 : l1 ≠ .terminated) (hinv : Inv ⟨w, .running⟩) :
    Inv ⟨(receiveIter w rh rb).1, l1⟩ := by
  have hl : l1 = .terminated ↔ LoopState.running = .terminated :=
    ⟨fun hh => absurd hh hl1, fun hh => by cases hh⟩
  cases rh with
  | error e =>
    rw [receiveIter_error]
    exact inv_frame w _ _ l1 hinv (List.Sublist.refl _) rfl (fun _ => rfl) rfl rfl hl
  | ok h =>
    cases hget : mapGet w.client.pending h.Seq with
    | none =>
      rw [receiveIter_unknown w h rb hget]
      exact inv_frame w _ _ l1 hinv (List.Sublist.refl _) rfl (fun _ => rfl) rfl rfl hl
    | some p =>
      have hreg := hinv.registered (h.Seq, p) (mapGet_mem _ _ _ hget)
      cases hc : w.calls[p]? with
      | none =>
        have hreg2 : (w.calls[p]?).map Call.Seq = some h.Seq := hreg
        simp [hc] at hreg2
      | some c =>
        rw [receiveIter_known w h rb p c hget hc]
        refine inv_deliver w _ .running l1 h.Seq p c.Done hinv (by simp) hl1 hget rfl
          (by simp) ?_ rfl rfl
        intro q
        apply set_map_seq _ _ _ c _ hc
        by_cases he : h.Error = ""
        · cases rb.err <;> simp [he, Call.setError]
        · simp [he, Call.setError]

theorem inv_terminateCalls (w : World) (e : GoError) (err : Option GoError)
    (hinv : Inv ⟨w, .exited e⟩) : Inv ⟨terminateCalls w err, .terminated⟩ := by
  obtain ⟨h1, _, _, _, h5, h6, _⟩ := terminateCalls_effect w err
  have hpend : (terminateCalls w err).client.pending = w.client.pending := by rw [h1]
  have hne : LoopState.exited e ≠ .terminated := by simp
  constructor
  · intro e1 he1
    show ((terminateCalls w err).calls[e1.2]?).map Call.Seq = some e1.1
    have he2 : e1 ∈ w.client.pending := by rw [← hpend]; exact he1
    have hreg : (w.calls[e1.2]?).map Call.Seq = some e1.1 := hinv.registered e1 he2
    rw [h6]
    split
    · cases hc : w.calls[e1.2]? with
      | none => simp [hc] at hreg
      | some c => simpa [hc, Call.setError] using hreg
    · exact hreg
  · show ((terminateCalls w err).client.pending.map Prod.snd).Nodup
    rw [hpend]
    exact hinv.distinct
  · intro hh
    exact absurd rfl hh
  · intro p
    show sentCount (terminateCalls w err) p ≤ 1
    by_cases hp : p < w.calls.length
    · rw [sentCount_terminateCalls w err p hp]
      by_cases hmem : p ∈ w.client.pending.map Prod.snd
      · obtain ⟨e1, he1, hep⟩ := List.mem_map.mp hmem
        have h0 : sentCount w e1.2 = 0 := hinv.undelivered hne e1 he1
        rw [hep] at h0
        rw [h0, List.count_eq_one_of_mem hinv.distinct hmem]
      · rw [List.count_eq_zero_of_not_mem hmem]
        exact hinv.once p
    · rw [sentCount_terminateCalls_out w err p (Nat.le_of_not_lt hp)]
      exact hinv.once p
  · intro p hp
    show sentCount (terminateCalls w err) p = 0
    have hp2 : w.calls.length ≤ p := by rw [← h5]; exact hp
    rw [sentCount_terminateCalls_out w err p hp2]
    exact hinv.unalloc p hp2
  · show LoopState.terminated = .terminated ↔ (terminateCalls w err).client.shutdown = true
    rw [h1]
    simp

theorem inv_step (s : System) (a : Step) (hinv : Inv s) : Inv (step s a) := by
  obtain ⟨w, l⟩ := s
  cases a with
  | go sm args reply done wr =>
    cases done with
    | none =>
      exact inv_goWith _ l sm args reply _ wr (inv_chans w l _ hinv)
    | some ch =>
      by_cases hcap : ch.cap = 0
      · simpa [step, Client.Go, hcap] using hinv
      · simpa [step, Client.Go, hcap] using inv_goWith w l sm args reply ch wr hinv
  | callStart sm args reply wr =>
    exact inv_goWith _ l sm args reply _ wr (inv_chans w l _ hinv)
  | recv rh rb =>
    cases l with
    | running =>
      show Inv ⟨(receiveIter w rh rb).1, _⟩
      apply inv_receiveIter w rh rb _ _ hinv
      cases (receiveIter w rh rb).2 <;> simp
    | exited e => exact hinv
    | terminated => exact hinv
  | cancel p ctxErr =>
    exact inv_removeCall w l _ hinv
  | close ce =>
    exact inv_close w l ce hinv
  | terminate =>
    cases l with
    | running => exact hinv
    | exited e => exact inv_terminateCalls w e (some e) hinv
    | terminated => exact hinv

theorem inv_run (s : System) (tr : List Step) (hinv : Inv s) : Inv (run s tr) := by
  induction tr generalizing s with
  | nil => exact hinv
  | cons a rest ih => exact ih (step s a) (inv_step s a hinv)

theorem inv_init (opt : Option ConnOption) (slots : List Payload) :
    Inv (initSystem opt slots) := by
  constructor
  · intro e he; simp [initSystem, NewClientCodec] at he
  · simp [initSystem, NewClientCodec]
  · intro _ e he; simp [initSystem, NewClientCodec] at he
  · intro p; simp [initSystem, NewClientCodec, sentCount]
  · intro p _; simp [initSystem, NewClientCodec, sentCount]
  · simp [initSystem, NewClientCodec]

theorem sentOn_le_sentCount (w : World) (ch : Chan) (p : Ptr) :
    sentOn w ch p ≤ sentCount w p := by
  unfold sentOn sentCount
  rw [List.count_eq_countP]
  apply List.countP_mono_left
  intro e _ he
  have h2 : e = (ch, p) := by simpa using he
  simp [h2]

/-! ## Sequence numbers -/

theorem registerCall_down (w : World) (call : Ptr)
    (hdown : (w.client.closing || w.client.shutdown) = true) :
    registerCall w call = (w, 0, some .ErrShutdown) := by
  simp [registerCall, hdown]

theorem registerCall_up (w : World) (call : Ptr)
    (hup : (w.client.closing || w.client.shutdown) = false) :
    (registerCall w call).2 = (w.client.seq, none) ∧
    (registerCall w call).1.client.seq = (w.client.seq + 1) % u64 := by
  cases hc : w.calls[call]? with
  | none => simp [registerCall, hup, updCall, hc]
  | some c =>
    simp [registerCall, hup, updCall, hc, List.getElem?_set, getElem?_lt _ _ _ hc,
      Call.setSeq]

theorem close_seq (w : World) (ce : Option GoError) :
    (Client.Close w ce).1.client.seq = w.client.seq := by
  unfold Client.Close
  split <;> rfl

theorem terminateCalls_seq (w : World) (err : Option GoError) :
    (terminateCalls w err).client.seq = w.client.seq := by
  rw [(terminateCalls_effect w err).1]

/-- From a state whose counter is `seq`, the successful registrations of a run get the numbers
`seq, seq + 1, ...` as long as the counter does not wrap. -/
theorem runRegOps_seqs (ops : List RegOp) (w : World)
    (h : w.client.seq + (runRegOps w ops).2.length ≤ u64) :
    (runRegOps w ops).2 = List.range' w.client.seq (runRegOps w ops).2.length := by
  induction ops generalizing w with
  | nil => simp [runRegOps]
  | cons op rest ih =>
    cases op with
    | registerCall c =>
      cases hd : (w.client.closing || w.client.shutdown) with
      | true =>
        have hr := registerCall_down { w with calls := w.calls ++ [c] } w.calls.length hd
        have heq : (runRegOps w (RegOp.registerCall c :: rest)).2 =
            (runRegOps { w with calls := w.calls ++ [c] } rest).2 := by
          simp [runRegOps, hr]
        rw [heq] at h ⊢
        exact ih { w with calls := w.calls ++ [c] } h
      | false =>
        obtain ⟨hr1, hr2⟩ :=
          registerCall_up { w with calls := w.calls ++ [c] } w.calls.length hd
        have hr3 : (registerCall { w with calls := w.calls ++ [c] } w.calls.length).2 =
            (w.client.seq, none) := hr1
        have hr4 : (registerCall { w with calls := w.calls ++ [c] } w.calls.length).1.client.seq =
            (w.client.seq + 1) % u64 := hr2
        have heq : (runRegOps w (RegOp.registerCall c :: rest)).2 =
            w.client.seq ::
              (runRegOps (registerCall { w with calls := w.calls ++ [c] } w.calls.length).1
                rest).2 := by
          have h1 : (registerCall { w with calls := w.calls ++ [c] } w.calls.length).2.2 =
              none := by rw [hr3]
          have h2 : (registerCall { w with calls := w.calls ++ [c] } w.calls.length).2.1 =
              w.client.seq := by rw [hr3]
          simp [runRegOps, h1, h2]
        rw [heq] at h ⊢
        simp only [List.length_cons] at h ⊢
        by_cases hz : (runRegOps
            (registerCall { w with calls := w.calls ++ [c] } w.calls.length).1 rest).2.length = 0
        · rw [hz, List.length_eq_zero.mp hz]
          rfl
        · have hlt : w.client.seq + 1 < u64 := by omega
          have hseq : (registerCall { w with calls := w.calls ++ [c] }
              w.calls.length).1.client.seq = w.client.seq + 1 := by
            rw [hr4, Nat.mod_eq_of_lt hlt]
          have hih := ih (registerCall { w with calls := w.calls ++ [c] } w.calls.length).1
            (by rw [hseq]; omega)
          rw [hseq] at hih
          rw [List.range'_succ, ← hih]
    | removeCall k =>
      exact ih (removeCall w k).1 h
    | terminateCalls err =>
      have hs := terminateCalls_seq w err
      have hih := ih (terminateCalls w err) (by rw [hs]; exact h)
      rw [hs] at hih
      exact hih
    | close ce =>
      have hs := close_seq w ce
      have hih := ih (Client.Close w ce).1 (by rw [hs]; exact h)
      rw [hs] at hih
      exact hih

/-! ## The effect of a step, and the counter before it wraps -/

theorem sentCount_mono_append (w w1 : World) (x : List (Chan × Ptr)) (p : Ptr)
    (h : w1.sent = w.sent ++ x) : sentCount w p ≤ sentCount w1 p := by
  unfold sentCount
  rw [h, List.countP_append]
  exact Nat.le_add_right _ _

theorem effect_goWith (a : Step) (w : World) (n : Nat) (sm : String) (args : Payload)
    (reply : Option Addr) (done : Chan) (wr : Option GoError) :
    Effect a w (goWith { w with chans := n } sm args reply done wr).1 := by
  cases hd : (w.client.closing || w.client.shutdown) with
  | true =>
    rw [goWith_down { w with chans := n } sm args reply done wr hd]
    exact Effect.allocDown _ done rfl rfl rfl rfl rfl
  | false =>
    cases wr with
    | none =>
      rw [goWith_ok { w with chans := n } sm args reply done hd]
      exact Effect.allocOk _ rfl rfl rfl rfl rfl
    | some err =>
      rw [goWith_fail { w with chans := n } sm args reply done err hd]
      exact Effect.allocFail _ done rfl rfl rfl rfl rfl

theorem effect_refl (a : Step) (w : World) : Effect a w w :=
  Effect.quiet rfl rfl rfl (fun _ => rfl) (fun _ => Nat.le_refl _)

theorem effect_receiveIter (a : Step) (w : World) (l : LoopState)
    (rh : Except GoError Header) (rb : BodyRead) (hinv : Inv ⟨w, l⟩) :
    Effect a w (receiveIter w rh rb).1 := by
  cases rh with
  | error e =>
    rw [receiveIter_error]
    exact Effect.quiet rfl rfl rfl (fun _ => rfl) (fun _ => Nat.le_refl _)
  | ok h =>
    cases hget : mapGet w.client.pending h.Seq with
    | none =>
      rw [receiveIter_unknown w h rb hget]
      exact Effect.quiet rfl rfl rfl (fun _ => rfl) (fun _ => Nat.le_refl _)
    | some p =>
      have hreg : (w.calls[p]?).map Call.Seq = some h.Seq :=
        hinv.registered (h.Seq, p) (mapGet_mem _ _ _ hget)
      cases hc : w.calls[p]? with
      | none => simp [hc] at hreg
      | some c =>
        rw [receiveIter_known w h rb p c hget hc]
        refine Effect.deliver h.Seq p c.Done hget rfl rfl (by simp) ?_ rfl
        intro q
        apply set_map_seq _ _ _ c _ hc
        by_cases he : h.Error = ""
        · cases rb.err <;> simp [he, Call.setError]
        · simp [he, Call.setError]

theorem effect_terminateCalls (a : Step) (w : World) (err : Option GoError) :
    Effect a w (terminateCalls w err) := by
  obtain ⟨h1, _, _, _, h5, h6, h7⟩ := terminateCalls_effect w err
  refine Effect.quiet (by rw [h1]) (by rw [h1]) h5 ?_
    (fun p => sentCount_mono_append w _ _ p h7)
  intro q
  rw [h6]
  split
  · cases w.calls[q]? <;> simp [Call.setError]
  · rfl

theorem effect_step (s : System) (a : Step) (hinv : Inv s) :
    Effect a s.world (step s a).world := by
  obtain ⟨w, l⟩ := s
  cases a with
  | go sm args reply done wr =>
    cases done with
    | none => exact effect_goWith _ w _ sm args reply _ wr
    | some ch =>
      by_cases hcap : ch.cap = 0
      · simpa [step, Client.Go, hcap] using effect_refl _ w
      · simpa [step, Client.Go, hcap] using effect_goWith _ w w.chans sm args reply ch wr
  | callStart sm args reply wr => exact effect_goWith _ w _ sm args reply _ wr
  | recv rh rb =>
    cases l with
    | running => exact effect_receiveIter _ w _ rh rb hinv
    | exited e => exact effect_refl _ w
    | terminated => exact effect_refl _ w
  | cancel p ctxErr => exact Effect.remove p ctxErr rfl rfl rfl rfl rfl
  | close ce =>
    show Effect _ w (Client.Close w ce).1
    unfold Client.Close
    split
    · exact effect_refl _ w
    · exact Effect.quiet rfl rfl rfl (fun _ => rfl) (fun _ => Nat.le_refl _)
  | terminate =>
    cases l with
    | running => exact effect_refl _ w
    | exited e => exact effect_terminateCalls _ w (some e)
    | terminated => exact effect_refl _ w

theorem effect_length (a : Step) (w w1 : World) (h : Effect a w w1) : w.calls.length ≤ w1.calls.length := by
  cases h with
  | quiet hp hs hl hq hm => rw [hl]
  | remove q ctxErr ha hp hs hc hsent => rw [hc]
  | deliver k p0 d hget hp hs hl hq hsent => rw [hl]
  | allocDown c1 d hc h0 hp hs hsent => rw [hc]; simp
  | allocOk c1 hc h0 hp hs hsent => rw [hc]; simp
  | allocFail c1 d hc h0 hp hs hsent => rw [hc]; simp

theorem run_length (s : System) (tr : List Step) (hinv : Inv s) :
    s.world.calls.length ≤ (run s tr).world.calls.length := by
  induction tr generalizing s with
  | nil => exact Nat.le_refl _
  | cons a rest ih =>
    exact Nat.le_trans (effect_length _ _ _ (effect_step s a hinv))
      (ih (step s a) (inv_step s a hinv))

theorem seqmap_some (calls1 calls : List Call) (p : Ptr) (c : Call)
    (hq : (calls1[p]?).map Call.Seq = (calls[p]?).map Call.Seq) (h : calls1[p]? = some c) :
    ∃ c0, calls[p]? = some c0 ∧ c0.Seq = c.Seq := by
  rw [h] at hq
  cases hc : calls[p]? with
  | none => simp [hc] at hq
  | some c0 =>
    refine ⟨c0, rfl, ?_⟩
    simp [hc] at hq
    exact hq.symm

theorem nowrap_same (w w1 : World) (hnw : NoWrap w)
    (hs : w1.client.seq = w.client.seq)
    (hl : w1.calls.length = w.calls.length)
    (hq : ∀ q : Ptr, (w1.calls[q]?).map Call.Seq = (w.calls[q]?).map Call.Seq) :
    NoWrap w1 := by
  constructor
  · rw [hs]; exact hnw.pos
  · rw [hs, hl]; exact hnw.bound
  · intro p c hc
    obtain ⟨c0, hc0, hseq⟩ := seqmap_some _ _ p c (hq p) hc
    rw [hs, ← hseq]
    exact hnw.below p c0 hc0
  · intro p q c d hc hd hcd hne
    obtain ⟨c0, hc0, hseq⟩ := seqmap_some _ _ p c (hq p) hc
    obtain ⟨d0, hd0, hseqd⟩ := seqmap_some _ _ q d (hq q) hd
    exact hnw.uniq p q c0 d0 hc0 hd0 (by rw [hseq, hseqd]; exact hcd) (by rw [hseq]; exact hne)

theorem getElem?_concat_cases {α : Type} (l : List α) (a c : α) (p : Nat)
    (h : (l ++ [a])[p]? = some c) : l[p]? = some c ∨ (p = l.length ∧ c = a) := by
  by_cases hp : p < l.length
  · rw [List.getElem?_append_left hp] at h
    exact Or.inl h
  · have hp2 : l.length ≤ p := Nat.le_of_not_lt hp
    rw [List.getElem?_append_right hp2] at h
    by_cases hp3 : p - l.length = 0
    · rw [hp3] at h
      simp at h
      exact Or.inr ⟨by omega, h.symm⟩
    · have hlt : ¬ (p - l.length < [a].length) := by simp; omega
      rw [List.getElem?_eq_none (Nat.le_of_not_lt hlt)] at h
      cases h

theorem nowrap_alloc (w w1 : World) (c1 : Call) (hnw : NoWrap w)
    (hc : w1.calls = w.calls ++ [c1])
    (hs : w.client.seq ≤ w1.client.seq)
    (hb : w1.client.seq ≤ w.client.seq + 1)
    (h0 : c1.Seq = 0 ∨ (c1.Seq = w.client.seq ∧ w1.client.seq = w.client.seq + 1)) :
    NoWrap w1 := by
  have hpos := hnw.pos
  have hbound := hnw.bound
  have hlen : w1.calls.length = w.calls.length + 1 := by rw [hc]; simp
  have hnew : c1.Seq < w1.client.seq := by
    rcases h0 with h | ⟨h, h2⟩
    · rw [h]; omega
    · rw [h, h2]; omega
  constructor
  · omega
  · rw [hlen]; omega
  · intro p c hpc
    rw [hc] at hpc
    rcases getElem?_concat_cases _ _ _ _ hpc with h | ⟨_, h⟩
    · have := hnw.below p c h
      omega
    · rw [h]; exact hnew
  · intro p q c d hpc hqd hcd hne
    rw [hc] at hpc hqd
    rcases getElem?_concat_cases _ _ _ _ hpc with h | ⟨hp, h⟩
    · rcases getElem?_concat_cases _ _ _ _ hqd with h2 | ⟨hq, h2⟩
      · exact hnw.uniq p q c d h h2 hcd hne
      · have hlt := hnw.below p c h
        rw [h2] at hcd
        rcases h0 with h3 | ⟨h3, _⟩
        · exact absurd (hcd.trans h3) hne
        · omega
    · rcases getElem?_concat_cases _ _ _ _ hqd with h2 | ⟨hq, h2⟩
      · have hlt := hnw.below q d h2
        rw [h] at hcd hne
        rcases h0 with h3 | ⟨h3, _⟩
        · exact absurd h3 hne
        · omega
      · rw [hp, hq]

theorem nowrap_effect (a : Step) (w w1 : World) (h : Effect a w w1) (hnw : NoWrap w)
    (hfew : w1.calls.length < u64 - 1) : NoWrap w1 := by
  have hbound := hnw.bound
  cases h with
  | quiet hp hs hl hq hm => exact nowrap_same w w1 hnw hs hl hq
  | remove q ctxErr ha hp hs hc hsent =>
    exact nowrap_same w w1 hnw hs (by rw [hc]) (fun q => by rw [hc])
  | deliver k p0 d hget hp hs hl hq hsent => exact nowrap_same w w1 hnw hs hl hq
  | allocDown c1 d hc h0 hp hs hsent =>
    exact nowrap_alloc w w1 c1 hnw hc (by rw [hs]) (by rw [hs]; omega) (Or.inl h0)
  | allocOk c1 hc h0 hp hs hsent =>
    have hlen : w1.calls.length = w.calls.length + 1 := by rw [hc]; simp
    have hlt : w.client.seq + 1 < u64 := by omega
    rw [Nat.mod_eq_of_lt hlt] at hs
    exact nowrap_alloc w w1 c1 hnw hc (by rw [hs]; omega) (by rw [hs]) (Or.inr ⟨h0, hs⟩)
  | allocFail c1 d hc h0 hp hs hsent =>
    have hlen : w1.calls.length = w.calls.length + 1 := by rw [hc]; simp
    have hlt : w.client.seq + 1 < u64 := by omega
    rw [Nat.mod_eq_of_lt hlt] at hs
    exact nowrap_alloc w w1 c1 hnw hc (by rw [hs]; omega) (by rw [hs]) (Or.inr ⟨h0, hs⟩)

theorem nowrap_run (s : System) (tr : List Step) (hinv : Inv s) (hnw : NoWrap s.world)
    (hfew : (run s tr).world.calls.length < u64 - 1) : NoWrap (run s tr).world := by
  induction tr generalizing s with
  | nil => exact hnw
  | cons a rest ih =>
    have hinv1 := inv_step s a hinv
    have hlen : (step s a).world.calls.length ≤ (run (step s a) rest).world.calls.length :=
      run_length (step s a) rest hinv1
    have hfew1 : (step s a).world.calls.length < u64 - 1 := Nat.lt_of_le_of_lt hlen hfew
    exact ih (step s a) hinv1 (nowrap_effect _ _ _ (effect_step s a hinv) hnw hfew1) hfew

theorem nowrap_init (opt : Option ConnOption) (slots : List Payload) :
    NoWrap (initSystem opt slots).world := by
  constructor
  · simp [initSystem, NewClientCodec]
  · simp [initSystem, NewClientCodec]
  · intro p c hc; simp [initSystem, NewClientCodec] at hc
  · intro p q c d hc; simp [initSystem, NewClientCodec] at hc

/-! ## A removed key stays absent; a live call stays pending -/

theorem mapGet_mapDelete_none (m : PendingMap) (j k : Nat) (h : mapGet m k = none) :
    mapGet (mapDelete m j) k = none := by
  by_cases hk : k = j
  · rw [hk]; exact mapGet_mapDelete_self m j
  · rw [mapGet_mapDelete_ne m j k hk]; exact h

theorem absent_effect (a : Step) (w w1 : World) (h : Effect a w w1) (hnw : NoWrap w)
    (hfew : w1.calls.length < u64 - 1) (k : Nat) (hk : k < w.client.seq)
    (habs : mapGet w.client.pending k = none) :
    k < w1.client.seq ∧ mapGet w1.client.pending k = none := by
  have hbound := hnw.bound
  cases h with
  | quiet hp hs hl hq hm => rw [hp, hs]; exact ⟨hk, habs⟩
  | remove q ctxErr ha hp hs hc hsent =>
    rw [hp, hs]; exact ⟨hk, mapGet_mapDelete_none _ _ _ habs⟩
  | deliver k0 p0 d hget hp hs hl hq hsent =>
    rw [hp, hs]; exact ⟨hk, mapGet_mapDelete_none _ _ _ habs⟩
  | allocDown c1 d hc h0 hp hs hsent => rw [hp, hs]; exact ⟨hk, habs⟩
  | allocOk c1 hc h0 hp hs hsent =>
    have hlen : w1.calls.length = w.calls.length + 1 := by rw [hc]; simp
    have hlt : w.client.seq + 1 < u64 := by omega
    rw [Nat.mod_eq_of_lt hlt] at hs
    rw [hp, hs, mapGet_mapSet_ne _ _ _ _ (Nat.ne_of_lt hk)]
    exact ⟨by omega, habs⟩
  | allocFail c1 d hc h0 hp hs hsent =>
    have hlen : w1.calls.length = w.calls.length + 1 := by rw [hc]; simp
    have hlt : w.client.seq + 1 < u64 := by omega
    rw [Nat.mod_eq_of_lt hlt] at hs
    rw [hp, hs]
    exact ⟨by omega, mapGet_mapDelete_none _ _ _ habs⟩

theorem absent_run (s : System) (tr : List Step) (hinv : Inv s) (hnw : NoWrap s.world)
    (hfew : (run s tr).world.calls.length < u64 - 1) (k : Nat) (hk : k < s.world.client.seq)
    (habs : mapGet s.world.client.pending k = none) :
    mapGet (run s tr).world.client.pending k = none := by
  induction tr generalizing s with
  | nil => exact habs
  | cons a rest ih =>
    have hinv1 := inv_step s a hinv
    have hlen : (step s a).world.calls.length ≤ (run (step s a) rest).world.calls.length :=
      run_length (step s a) rest hinv1
    have hfew1 : (step s a).world.calls.length < u64 - 1 := Nat.lt_of_le_of_lt hlen hfew
    have heff := effect_step s a hinv
    obtain ⟨hk1, habs1⟩ := absent_effect _ _ _ heff hnw hfew1 k hk habs
    exact ih (step s a) hinv1 (nowrap_effect _ _ _ heff hnw hfew1) hfew hk1 habs1

theorem run_stopped (w : World) (l : LoopState) (script : List (Header × BodyRead))
    (final : GoError) (hl : l ≠ .running) :
    (run ⟨w, l⟩ (script.map (fun f => Step.recv (.ok f.1) f.2) ++
      [Step.recv (.error final) ⟨0, none⟩])) = ⟨w, l⟩ := by
  induction script with
  | nil => cases l <;> simp [run, step] at hl ⊢
  | cons f rest ih =>
    have h1 : step ⟨w, l⟩ (Step.recv (.ok f.1) f.2) = ⟨w, l⟩ := by
      cases l <;> simp [step] at hl ⊢
    simp only [List.map_cons, List.cons_append, run, h1]
    exact ih

theorem run_append (s : System) (tr1 tr2 : List Step) :
    run s (tr1 ++ tr2) = run (run s tr1) tr2 := by
  induction tr1 generalizing s with
  | nil => rfl
  | cons a rest ih => exact ih (step s a)

/-- Running `receive` to its end is the execution in which the dispatch goroutine takes one
loop iteration per frame, stops at the first error, and then flushes once. -/
theorem receive_as_run (w : World) (script : List (Header × BodyRead)) (final : GoError) :
    run ⟨w, .running⟩ (receiveSteps script final) =
      ⟨receive w script final, .terminated⟩ := by
  induction script generalizing w with
  | nil => simp [receiveSteps, run, step, receive, receiveIter]
  | cons f rest ih =>
    obtain ⟨h, rb⟩ := f
    cases hr : (receiveIter w (.ok h) rb).2 with
    | none =>
      have h1 : step ⟨w, .running⟩ (Step.recv (.ok h) rb) =
          ⟨(receiveIter w (.ok h) rb).1, .running⟩ := by
        simp [step, hr]
      have h2 : receive w ((h, rb) :: rest) final =
          receive (receiveIter w (.ok h) rb).1 rest final := by
        rw [receive]
        split
        · rename_i w1 heq
          rw [heq]
        · rename_i w1 e heq
          rw [heq] at hr
          cases hr
      rw [h2, ← ih]
      simp only [receiveSteps, List.map_cons, List.cons_append, run, h1]
      rfl
    | some e =>
      have h1 : step ⟨w, .running⟩ (Step.recv (.ok h) rb) =
          ⟨(receiveIter w (.ok h) rb).1, .exited e⟩ := by
        simp [step, hr]
      have h2 : receive w ((h, rb) :: rest) final =
          terminateCalls (receiveIter w (.ok h) rb).1 (some e) := by
        rw [receive]
        split
        · rename_i w1 heq
          rw [heq] at hr
          cases hr
        · rename_i w1 e1 heq
          rw [heq] at hr
          cases hr
          rw [heq]
      have h3 : receiveSteps ((h, rb) :: rest) final =
          Step.recv (.ok h) rb ::
            ((rest.map (fun f => Step.recv (.ok f.1) f.2) ++
              [Step.recv (.error final) ⟨0, none⟩]) ++ [Step.terminate]) := by
        simp [receiveSteps]
      rw [h2, h3]
      simp only [run]
      rw [h1, run_append, run_stopped _ _ rest final (by simp)]
      simp [run, step]

/-! ## The flush with sends that may block -/

@[simp] theorem doneOf_updCall_setError (w : World) (p q : Ptr) (err : Option GoError) :
    doneOf (updCall w p (Call.setError err)) q = doneOf w q := by
  unfold doneOf
  rw [updCall_getElem?]
  by_cases hq : q = p
  · rw [if_pos hq, hq]
    cases w.calls[p]? <;> simp [Call.setError]
  · rw [if_neg hq]

@[simp] theorem doneOf_done (w : World) (p q : Ptr) : doneOf (Call.done w p) q = doneOf w q := by
  unfold doneOf
  rw [done_calls]

@[simp] theorem doneOf_flushCall (err : Option GoError) (w : World) (e : Nat × Ptr) (q : Ptr) :
    doneOf (flushCall err w e) q = doneOf w q := by
  unfold flushCall
  rw [doneOf_done, doneOf_updCall_setError]

theorem done_of_unallocated (w : World) (p : Ptr) (h : doneOf w p = none) :
    Call.done w p = w := by
  unfold doneOf at h
  unfold Call.done
  cases hc : w.calls[p]? with
  | none => rfl
  | some c => simp [hc] at h

theorem doneBlocking_unallocated (w : World) (lens : Chan → Nat) (p : Ptr)
    (h : doneOf w p = none) : Call.doneBlocking w lens p = some (w, lens) := by
  simp [Call.doneBlocking, h]

theorem doneBlocking_room (w : World) (lens : Chan → Nat) (p : Ptr) (d : Chan)
    (h : doneOf w p = some d) (hroom : lens d < d.cap) :
    Call.doneBlocking w lens p =
      some (Call.done w p, fun ch => if ch = d then lens ch + 1 else lens ch) := by
  simp [Call.doneBlocking, h, hroom]

theorem doneBlocking_full (w : World) (lens : Chan → Nat) (p : Ptr) (d : Chan)
    (h : doneOf w p = some d) (hfull : ¬ lens d < d.cap) :
    Call.doneBlocking w lens p = none := by
  simp [Call.doneBlocking, h, hfull]

theorem doneBlocking_world (w : World) (lens : Chan → Nat) (p : Ptr)
    (r : World × (Chan → Nat)) (h : Call.doneBlocking w lens p = some r) :
    r.1 = Call.done w p := by
  cases hd : doneOf w p with
  | none =>
    rw [doneBlocking_unallocated w lens p hd] at h
    rw [done_of_unallocated w p hd, ← Option.some.inj h]
  | some d =>
    by_cases hroom : lens d < d.cap
    · rw [doneBlocking_room w lens p d hd hroom] at h
      rw [← Option.some.inj h]
    · rw [doneBlocking_full w lens p d hd hroom] at h
      cases h

/-- The loop with blocking sends has flushed a prefix of the entries as the loop without
blocking does; it has either returned, the prefix being the whole list, or set the `Error` of
the next call and blocked at its send. -/
theorem flushFrom_prefix (err : Option GoError) (l : PendingMap) (w : World)
    (lens : Chan → Nat) :
    ∃ pre post, l = pre ++ post ∧
      (((flushFrom err w lens l).returned = true ∧ post = [] ∧
          (flushFrom err w lens l).world = pre.foldl (flushCall err) w) ∨
       ((flushFrom err w lens l).returned = false ∧ ∃ e rest, post = e :: rest ∧
          (flushFrom err w lens l).world =
            updCall (pre.foldl (flushCall err) w) e.2 (Call.setError err))) := by
  induction l generalizing w lens with
  | nil => exact ⟨[], [], rfl, Or.inl ⟨rfl, rfl, rfl⟩⟩
  | cons e rest ih =>
    cases hb : Call.doneBlocking (updCall w e.2 (Call.setError err)) lens e.2 with
    | none =>
      refine ⟨[], e :: rest, rfl, Or.inr ⟨?_, e, rest, rfl, ?_⟩⟩
      · simp [flushFrom, hb]
      · simp [flushFrom, hb]
    | some r =>
      have hr : r.1 = flushCall err w e := doneBlocking_world _ _ _ r hb
      have hstep : flushFrom err w lens (e :: rest) = flushFrom err (flushCall err w e) r.2 rest := by
        simp [flushFrom, hb, ← hr]
      obtain ⟨pre, post, hl, hcase⟩ := ih (flushCall err w e) r.2
      refine ⟨e :: pre, post, by rw [hl]; rfl, ?_⟩
      rw [hstep]
      simpa [List.foldl_cons] using hcase

/-- The loop returns exactly when every channel that receives a send has room for all the
sends it receives. -/
theorem flushFrom_returned (err : Option GoError) (l : PendingMap) (w : World)
    (lens : Chan → Nat) :
    (flushFrom err w lens l).returned = true ↔
      ∀ d, 0 < l.countP (fun e => decide (doneOf w e.2 = some d)) →
        lens d + l.countP (fun e => decide (doneOf w e.2 = some d)) ≤ d.cap := by
  induction l generalizing w lens with
  | nil => simp [flushFrom]
  | cons e rest ih =>
    cases hd : doneOf w e.2 with
    | none =>
      have hb := doneBlocking_unallocated (updCall w e.2 (Call.setError err)) lens e.2
        (by rw [doneOf_updCall_setError]; exact hd)
      have hstep : flushFrom err w lens (e :: rest) =
          flushFrom err (updCall w e.2 (Call.setError err)) lens rest := by
        simp [flushFrom, hb]
      rw [hstep, ih]
      simp only [doneOf_updCall_setError, List.countP_cons, hd]
      simp
    | some d0 =>
      have hd1 : doneOf (updCall w e.2 (Call.setError err)) e.2 = some d0 := by
        rw [doneOf_updCall_setError]; exact hd
      by_cases hroom : lens d0 < d0.cap
      · have hb := doneBlocking_room _ lens e.2 d0 hd1 hroom
        have hstep : flushFrom err w lens (e :: rest) =
            flushFrom err (flushCall err w e)
              (fun ch => if ch = d0 then lens ch + 1 else lens ch) rest := by
          simp [flushFrom, hb, flushCall]
        have hcount : ∀ d, (e :: rest).countP (fun e => decide (doneOf w e.2 = some d)) =
            rest.countP (fun e => decide (doneOf w e.2 = some d)) +
              (if d = d0 then 1 else 0) := by
          intro d
          by_cases hdd : d = d0
          · subst hdd
            simp [List.countP_cons, hd]
          · have hne : ¬ (d0 = d) := fun hh => hdd hh.symm
            simp [List.countP_cons, hd, hne, hdd]
        rw [hstep, ih]
        simp only [doneOf_flushCall, hcount]
        constructor
        · intro h d hpos
          have h1 := h d
          by_cases hdd : d = d0
          · subst hdd
            simp only [↓reduceIte] at h1 hpos ⊢
            omega
          · simp only [hdd, ↓reduceIte] at h1 hpos ⊢
            omega
        · intro h d hpos
          have h1 := h d
          by_cases hdd : d = d0
          · subst hdd
            simp only [↓reduceIte] at h1 ⊢
            omega
          · simp only [hdd, ↓reduceIte] at h1 ⊢
            omega
      · have hb := doneBlocking_full _ lens e.2 d0 hd1 hroom
        have hstep : (flushFrom err w lens (e :: rest)).returned = false := by
          simp [flushFrom, hb]
        rw [hstep]
        constructor
        · intro h; cases h
        · intro h
          have hpos : 0 < (e :: rest).countP (fun e => decide (doneOf w e.2 = some d0)) := by
            simp [List.countP_cons, hd]
          have h1 := h d0 hpos
          omega

theorem hasRoom_iff (w : World) (lens : Chan → Nat) :
    hasRoom w lens = true ↔
      ∀ d, 0 < pendingOn w d → lens d + pendingOn w d ≤ d.cap := by
  unfold hasRoom
  rw [List.all_eq_true]
  constructor
  · intro h d hpos
    unfold pendingOn at hpos
    obtain ⟨e, he, hed⟩ := List.countP_pos.mp hpos
    have hd : doneOf w e.2 = some d := by simpa using hed
    have := h e he
    simpa [hd] using this
  · intro h e he
    cases hd : doneOf w e.2 with
    | none => rfl
    | some d =>
      have hpos : 0 < pendingOn w d := by
        unfold pendingOn
        exact List.countP_pos.mpr ⟨e, he, by simpa using hd⟩
      simpa using h d hpos

/-- Effect of `terminateCalls` with sends that may block: it has flushed a prefix `pre` of
the pending entries. -/
theorem terminateCallsBlocking_effect (w : World) (err : Option GoError) (lens : Chan → Nat) :
    ∃ pre post, w.client.pending = pre ++ post ∧
      (terminateCallsBlocking w err lens).world.client = { w.client with shutdown := true } ∧
      (terminateCallsBlocking w err lens).world.sent =
        w.sent ++ pre.filterMap (fun e => (w.calls[e.2]?).map (fun c => (c.Done, e.2))) ∧
      (∀ q : Ptr, q ∉ w.client.pending.map Prod.snd →
        (terminateCallsBlocking w err lens).world.calls[q]? = w.calls[q]?) ∧
      ((terminateCallsBlocking w err lens).returned = true →
        (terminateCallsBlocking w err lens).world = terminateCalls w err) := by
  obtain ⟨pre, post, hl, hcase⟩ := flushFrom_prefix err w.client.pending
    { w with client := { w.client with shutdown := true } } lens
  obtain ⟨h1, _, _, _, _, h6, h7⟩ := flush_fold err pre
    { w with client := { w.client with shutdown := true } }
  have hpre : ∀ q : Ptr, q ∉ w.client.pending.map Prod.snd → q ∉ pre.map Prod.snd := by
    intro q hq hh
    apply hq
    rw [hl, List.map_append]
    exact List.mem_append_left _ hh
  refine ⟨pre, post, hl, ?_⟩
  rcases hcase with ⟨hret, hpost, hworld⟩ | ⟨hret, e, rest, hpost, hworld⟩
  · have hw : (terminateCallsBlocking w err lens).world =
        pre.foldl (flushCall err) { w with client := { w.client with shutdown := true } } :=
      hworld
    refine ⟨by rw [hw, h1], by rw [hw, h7], ?_, ?_⟩
    · intro q hq
      rw [hw, h6, if_neg (hpre q hq)]
    · intro _
      rw [hw]
      have hpp : pre = w.client.pending := by rw [hl, hpost, List.append_nil]
      rw [hpp]
      rfl
  · have hw : (terminateCallsBlocking w err lens).world =
        updCall (pre.foldl (flushCall err)
          { w with client := { w.client with shutdown := true } }) e.2 (Call.setError err) :=
      hworld
    have hr : (terminateCallsBlocking w err lens).returned = false := hret
    refine ⟨by rw [hw, updCall_client, h1], by rw [hw, updCall_sent, h7], ?_, ?_⟩
    · intro q hq
      have hne : ¬ q = e.2 := by
        intro hh
        apply hq
        rw [hl, hpost, List.map_append, hh]
        exact List.mem_append_right _ (by simp)
      rw [hw, updCall_getElem?, if_neg hne, h6, if_neg (hpre q hq)]
    · intro hh
      rw [hr] at hh
      cases hh

/-- The flush in which no send blocks, in a state whose pending entries hold pairwise distinct,
allocated calls: `shutdown` is set, `closing`, `seq` and the pending table are as before, every
pending call has `Error` set to `err` and is sent exactly once on its `Done` channel and on no
other; a call that is not pending keeps its record and is not sent. -/
theorem terminateCalls_flushes (w : World) (err : Option GoError)
    (hnodup : (w.client.pending.map Prod.snd).Nodup)
    (hvalid : ∀ e ∈ w.client.pending, e.2 < w.calls.length) :
    (terminateCalls w err).client.shutdown = true ∧
    (terminateCalls w err).client.closing = w.client.closing ∧
    (terminateCalls w err).client.seq = w.client.seq ∧
    (terminateCalls w err).client.pending = w.client.pending ∧
    (∀ e ∈ w.client.pending, ∃ c, w.calls[e.2]? = some c ∧
      (terminateCalls w err).calls[e.2]? = some { c with Error := err } ∧
      ∀ ch, sentOn (terminateCalls w err) ch e.2 =
        sentOn w ch e.2 + if ch = c.Done then 1 else 0) ∧
    (∀ q, q ∉ w.client.pending.map Prod.snd →
      (terminateCalls w err).calls[q]? = w.calls[q]? ∧
      ∀ ch, sentOn (terminateCalls w err) ch q = sentOn w ch q) := by
  obtain ⟨h1, _, _, _, _, h6, _⟩ := terminateCalls_effect w err
  refine ⟨by rw [h1], by rw [h1], by rw [h1], by rw [h1], ?_, ?_⟩
  · intro e he
    have hmem : e.2 ∈ w.client.pending.map Prod.snd := List.mem_map_of_mem _ he
    have hlt := hvalid e he
    refine ⟨w.calls[e.2], List.getElem?_eq_getElem hlt, ?_, ?_⟩
    · rw [h6, if_pos hmem, List.getElem?_eq_getElem hlt]
      rfl
    · intro ch
      rw [sentOn_terminateCalls, List.getElem?_eq_getElem hlt,
        List.count_eq_one_of_mem hnodup hmem]
      by_cases hch : ch = w.calls[e.2].Done
      · simp [hch]
      · have hch2 : ¬ (w.calls[e.2].Done = ch) := fun hh => hch hh.symm
        simp [hch, hch2]
  · intro q hq
    refine ⟨by rw [h6, if_neg hq], ?_⟩
    intro ch
    rw [sentOn_terminateCalls, List.count_eq_zero_of_not_mem hq]
    simp

/-! ## Claims -/

/-- C7. `NewHTTPClient` on a transport-level read error (`http.ReadResponse` gives a nil
response and a non-nil error) does not return: the `defer resp.Body.Close()` placed before the
error check dereferences the nil response and panics. When a response was read, the function
hands over to `NewClient` exactly when the status equals `connected`, and otherwise returns a
nil client with a non-nil error. -/
theorem c7_newHTTPClient_outcomes (connected : String) :
    (∀ e : GoError, NewHTTPClient connected none (some e) = Bootstrap.panicked) ∧
    (∀ r : Response, NewHTTPClient connected (some r) none =
      if r.Status = connected then Bootstrap.viaNewClient
      else Bootstrap.failed (some (errors_New ("unexpected HTTP response:" ++ r.Status)))) := by
  refine ⟨fun e => rfl, fun r => ?_⟩
  by_cases h : r.Status = connected <;> simp [NewHTTPClient, h]

/-- C8, the claim as stated fails: two arguments whose first is nil give the default option
and a nil error. -/
theorem c8_counterexample :
    ¬ (1 < ([none, some ⟨7, "application/json", 3, 4⟩] : List (Option ConnOption)).length →
      (parseOptions ⟨3927900, "application/gob", 10, 0⟩
          [none, some ⟨7, "application/json", 3, 4⟩]).1 = none ∧
      (parseOptions ⟨3927900, "application/gob", 10, 0⟩
          [none, some ⟨7, "application/json", 3, 4⟩]).2 ≠ none) := by
  decide

/-- C8, amended. For every argument list with more than one element: when the first element
is not nil, `parseOptions` returns a nil option and a non-nil error; when the first element is
nil, it returns the default option and a nil error. -/
theorem c8_parseOptions_more_than_one (DefaultOption : ConnOption)
    (opts : List (Option ConnOption)) (hlen : 1 < opts.length) :
    (opts.head? ≠ some none →
      (parseOptions DefaultOption opts).1 = none ∧ (parseOptions DefaultOption opts).2 ≠ none) ∧
    (opts.head? = some none → parseOptions DefaultOption opts = (some DefaultOption, none)) := by
  have h0 : opts.length ≠ 0 := by omega
  have h1 : opts.length ≠ 1 := by omega
  constructor
  · intro hh
    simp [parseOptions, h0, h1, hh]
  · intro hh
    simp [parseOptions, hh]

theorem c8_parseOptions_more_than_one_witness :
    1 < ([some ⟨7, "", 3, 4⟩, none] : List (Option ConnOption)).length ∧
    (parseOptions ⟨3927900, "application/gob", 10, 0⟩ [some ⟨7, "", 3, 4⟩, none]).1 = none ∧
    (parseOptions ⟨3927900, "application/gob", 10, 0⟩ [some ⟨7, "", 3, 4⟩, none]).2 ≠ none :=
  ⟨by decide,
   (c8_parseOptions_more_than_one ⟨3927900, "application/gob", 10, 0⟩
      [some ⟨7, "", 3, 4⟩, none] (by decide)).1 (by decide)⟩

/-- C9. `XDial` ends with its own format error, and so without calling a dialer, exactly when
the target does not contain exactly one `@`. When it contains exactly one, it decomposes as
protocol, `@`, address, and every such decomposition is routed to `DialHTTP("tcp", address)`
when the protocol is `http` and to `Dial(protocol, address)` otherwise. -/
theorem c9_xdial_dispatch (rpcAddr : GoString) :
    ((∃ e, XDial rpcAddr = Dispatch.formatError e) ↔ rpcAddr.count '@' ≠ 1) ∧
    (rpcAddr.count '@' = 1 →
      (∃ protocol addr, rpcAddr = protocol ++ '@' :: addr) ∧
      ∀ protocol addr, rpcAddr = protocol ++ '@' :: addr →
        XDial rpcAddr =
          if protocol = "http".toList then Dispatch.viaDialHTTP "tcp".toList addr
          else Dispatch.viaDial protocol addr) := by
  have hlen : (strings_Split rpcAddr).length = rpcAddr.count '@' + 1 :=
    splitAtSign_length rpcAddr []
  constructor
  · constructor
    · rintro ⟨e, he⟩ hc
      have h2 : (strings_Split rpcAddr).length = 2 := by omega
      simp only [XDial, h2, ne_eq, not_true_eq_false, if_false] at he
      split_ifs at he
    · intro hc
      have h2 : (strings_Split rpcAddr).length ≠ 2 := by omega
      simp only [XDial, h2, ne_eq, not_false_eq_true, if_true]
      exact ⟨_, rfl⟩
  · intro hc
    obtain ⟨p, a, hs, hp, ha⟩ := count_one_split rpcAddr hc
    refine ⟨⟨p, a, hs⟩, ?_⟩
    intro protocol addr hdec
    have hp2 : '@' ∉ protocol := by
      intro hh
      have h1 : 0 < protocol.count '@' := List.count_pos_iff.mpr hh
      rw [hdec] at hc
      simp [List.count_append, List.count_cons] at hc
      omega
    have ha2 : '@' ∉ addr := by
      intro hh
      have h1 : 0 < addr.count '@' := List.count_pos_iff.mpr hh
      rw [hdec] at hc
      simp [List.count_append, List.count_cons] at hc
      omega
    have hsplit : strings_Split rpcAddr = [protocol, addr] := by
      rw [strings_Split, hdec, splitAtSign_sep protocol addr [] hp2,
        splitAtSign_no_sep addr [] ha2]
      simp
    simp [XDial, hsplit]

theorem c9_xdial_dispatch_witness :
    "http@127.0.0.1:9999".toList.count '@' = 1 ∧
    XDial "http@127.0.0.1:9999".toList =
      Dispatch.viaDialHTTP "tcp".toList "127.0.0.1:9999".toList ∧
    XDial "unix@/tmp/rpc.sock".toList =
      Dispatch.viaDial "unix".toList "/tmp/rpc.sock".toList ∧
    ∃ e, XDial "no-at-sign".toList = Dispatch.formatError e :=
  ⟨by decide,
   ((c9_xdial_dispatch "http@127.0.0.1:9999".toList).2 (by decide)).2
      "http".toList "127.0.0.1:9999".toList (by decide),
   ((c9_xdial_dispatch "unix@/tmp/rpc.sock".toList).2 (by decide)).2
      "unix".toList "/tmp/rpc.sock".toList (by decide),
   (c9_xdial_dispatch "no-at-sign".toList).1.2 (by decide)⟩

/-- C1. In every execution from a client built by `NewClientCodec` (any interleaving of
`Go`, `Call`, loop iterations of `receive`, the cancellation step of `Call`, `Close`, and the
flush `terminateCalls` once the loop has exited), every call has been sent at most once: at
most once over all channels together, hence at most once on any one channel, its own `Done`
included. The bound needs no assumption on the number of registrations. -/
theorem c1_delivered_at_most_once (opt : Option ConnOption) (slots : List Payload)
    (tr : List Step) (p : Ptr) :
    sentCount (run (initSystem opt slots) tr).world p ≤ 1 ∧
    ∀ ch, sentOn (run (initSystem opt slots) tr).world ch p ≤ 1 :=
  ⟨(inv_run _ tr (inv_init opt slots)).once p,
   fun ch => Nat.le_trans (sentOn_le_sentCount _ ch p) ((inv_run _ tr (inv_init opt slots)).once p)⟩

/-- C2. On a client built by `NewClientCodec`, for every sequence of registry operations
(`registerCall`, `removeCall`, `terminateCalls`, `Close`) with fewer than `2^64 - 1` successful
registrations, the successful registrations return `1, 2, 3, ...` in order: the k-th returns
`k`. The returned numbers are therefore pairwise distinct and none of them is 0. -/
theorem c2_seq_unique (opt : Option ConnOption) (slots : List Payload) (ops : List RegOp)
    (hfew : (runRegOps (NewClientCodec opt slots) ops).2.length < u64 - 1) :
    (∀ k, k < (runRegOps (NewClientCodec opt slots) ops).2.length →
      (runRegOps (NewClientCodec opt slots) ops).2[k]? = some (k + 1)) ∧
    (runRegOps (NewClientCodec opt slots) ops).2.Nodup ∧
    0 ∉ (runRegOps (NewClientCodec opt slots) ops).2 := by
  have hseq : (NewClientCodec opt slots).client.seq = 1 := rfl
  have h := runRegOps_seqs ops (NewClientCodec opt slots) (by rw [hseq]; unfold u64 at *; omega)
  rw [hseq] at h
  refine ⟨?_, ?_, ?_⟩
  · intro k hk
    rw [h, List.getElem?_range' _ _ (by simpa using hk)]
    simp [Nat.add_comm]
  · rw [h]
    exact List.nodup_range' _ _
  · rw [h]
    simp only [List.mem_range', not_exists, not_and]
    intro x _
    omega

theorem c2_seq_unique_witness :
    (runRegOps (NewClientCodec none []) registryOps).2 = [1, 2] ∧
    (runRegOps (NewClientCodec none []) registryOps).2.Nodup ∧
    0 ∉ (runRegOps (NewClientCodec none []) registryOps).2 :=
  ⟨by decide, (c2_seq_unique none [] registryOps (by decide)).2⟩

/-- C6. Let `c`, stored at `p`, be a call of a state the client has reached. The context-done
branch of `Call` returns a non-nil error and leaves the key `c.Seq` absent from `pending`. In
any state in which that key is absent, a loop iteration reading a header with that `Seq` only
reads the body into a nil sink: `pending`, every call record, the caller variables and the
sends are as before. And the key is still absent after any further execution, as long as fewer
than `2^64 - 1` calls have been submitted, so that the counter has not come round to it. -/
theorem c6_cancel_drops_late_reply (opt : Option ConnOption) (slots : List Payload)
    (tr1 tr2 : List Step) (p : Ptr) (c : Call) (ctxErr : String) (h : Header) (rb : BodyRead)
    (hc : (run (initSystem opt slots) tr1).world.calls[p]? = some c)
    (hseq : h.Seq = c.Seq) :
    (Client.CallCtxDone (run (initSystem opt slots) tr1).world p ctxErr).2 ≠ none ∧
    mapGet (Client.CallCtxDone (run (initSystem opt slots) tr1).world p ctxErr).1.client.pending
      c.Seq = none ∧
    (∀ w : World, mapGet w.client.pending c.Seq = none →
      receiveIter w (.ok h) rb =
        ({ w with ccLog := w.ccLog ++ [.readHeader, .readBody none] }, rb.err)) ∧
    ((run (step (run (initSystem opt slots) tr1) (.cancel p ctxErr)) tr2).world.calls.length
        < u64 - 1 →
      mapGet (run (step (run (initSystem opt slots) tr1) (.cancel p ctxErr))
        tr2).world.client.pending c.Seq = none) := by
  have hinv1 := inv_run _ tr1 (inv_init opt slots)
  have hinv2 := inv_step _ (.cancel p ctxErr) hinv1
  have hworld : (step (run (initSystem opt slots) tr1) (.cancel p ctxErr)).world =
      (removeCall (run (initSystem opt slots) tr1).world c.Seq).1 := by
    simp [step, Client.CallCtxDone, hc]
  have habs : mapGet (step (run (initSystem opt slots) tr1)
      (.cancel p ctxErr)).world.client.pending c.Seq = none := by
    rw [hworld]
    exact mapGet_mapDelete_self _ _
  refine ⟨by simp [Client.CallCtxDone], ?_, ?_, ?_⟩
  · simpa [step] using habs
  · intro w hw
    exact receiveIter_unknown w h rb (by rw [hseq]; exact hw)
  · intro hfew
    have hlen2 := run_length _ tr2 hinv2
    have hlen1 := effect_length _ _ _ (effect_step _ (.cancel p ctxErr) hinv1)
    have hnw1 := nowrap_run _ tr1 (inv_init opt slots) (nowrap_init opt slots)
      (Nat.lt_of_le_of_lt (Nat.le_trans hlen1 hlen2) hfew)
    have hnw2 := nowrap_effect _ _ _ (effect_step _ (.cancel p ctxErr) hinv1) hnw1
      (Nat.lt_of_le_of_lt hlen2 hfew)
    have hk : c.Seq < (step (run (initSystem opt slots) tr1)
        (.cancel p ctxErr)).world.client.seq := by
      rw [hworld]
      exact hnw1.below p c hc
    exact absent_run _ tr2 hinv2 hnw2 hfew c.Seq hk habs

theorem c6_cancel_drops_late_reply_witness :
    (run (initSystem none [0, 0, 0]) twoCalls).world.calls[1]? =
      some ⟨2, "Arith.Mul", 6, some 1, none, ⟨1, 1⟩⟩ ∧
    mapGet (run (initSystem none [0, 0, 0]) twoCalls).world.client.pending 2 = some 1 ∧
    mapGet (run (step (run (initSystem none [0, 0, 0]) twoCalls) (.cancel 1 "context canceled"))
      afterCancel).world.client.pending 2 = none ∧
    (run (step (run (initSystem none [0, 0, 0]) twoCalls) (.cancel 1 "context canceled"))
      afterCancel).world.sent = [] :=
  ⟨by decide, by decide,
   (c6_cancel_drops_late_reply none [0, 0, 0] twoCalls afterCancel 1
      ⟨2, "Arith.Mul", 6, some 1, none, ⟨1, 1⟩⟩ "context canceled" ⟨"Arith.Mul", 2, ""⟩
      ⟨30, none⟩ (by decide) rfl).2.2.2 (by decide),
   by decide⟩

/-- C4, the claim as stated fails: with three calls pending on one `Done` channel of capacity
1 and nobody receiving, `terminateCalls` sends the first call, sets the `Error` of the second
and blocks at its send; it does not return, and the third pending call has neither its `Error`
set nor been sent. -/
theorem c4_counterexample :
    (sharedPending.client.pending.map Prod.snd).Nodup ∧
    mapGet sharedPending.client.pending 3 = some 2 ∧
    (terminateCallsBlocking sharedPending (some (.mk "EOF")) (fun _ => 0)).returned = false ∧
    ((terminateCallsBlocking sharedPending (some (.mk "EOF")) (fun _ => 0)).world.calls[2]?).map
      Call.Error = some none ∧
    sentOn (terminateCallsBlocking sharedPending (some (.mk "EOF")) (fun _ => 0)).world ⟨7, 1⟩ 2
      = 0 := by
  decide

/-- C4, amended. In a state whose pending entries hold pairwise distinct, allocated calls (as
they do in every state the client reaches, see `inv_run`), and for any filling `lens` of the
channel buffers, `terminateCalls(err)` sets `shutdown` and leaves `closing`, `seq` and the
pending table as they are; a call that is not pending keeps its record and is not sent; a
pending call is sent at most once, and only on its `Done` channel. With no caller receiving
meanwhile, the method returns exactly when every `Done` channel of a pending call has free
buffer slots for all the pending calls that share it; otherwise it blocks at a send. When it
returns, every pending call has `Error` set to `err` and has been sent exactly once on its
`Done` channel. -/
theorem c4_shutdown_flush (w : World) (err : Option GoError) (lens : Chan → Nat)
    (hnodup : (w.client.pending.map Prod.snd).Nodup)
    (hvalid : ∀ e ∈ w.client.pending, e.2 < w.calls.length) :
    (terminateCallsBlocking w err lens).world.client.shutdown = true ∧
    (terminateCallsBlocking w err lens).world.client.closing = w.client.closing ∧
    (terminateCallsBlocking w err lens).world.client.seq = w.client.seq ∧
    (terminateCallsBlocking w err lens).world.client.pending = w.client.pending ∧
    (∀ q, q ∉ w.client.pending.map Prod.snd →
      (terminateCallsBlocking w err lens).world.calls[q]? = w.calls[q]? ∧
      ∀ ch, sentOn (terminateCallsBlocking w err lens).world ch q = sentOn w ch q) ∧
    (∀ e ∈ w.client.pending, ∀ ch,
      sentOn w ch e.2 ≤ sentOn (terminateCallsBlocking w err lens).world ch e.2 ∧
      sentOn (terminateCallsBlocking w err lens).world ch e.2 ≤
        sentOn w ch e.2 + if doneOf w e.2 = some ch then 1 else 0) ∧
    ((terminateCallsBlocking w err lens).returned = true ↔ hasRoom w lens = true) ∧
    ((terminateCallsBlocking w err lens).returned = true →
      ∀ e ∈ w.client.pending, ∃ c, w.calls[e.2]? = some c ∧
        (terminateCallsBlocking w err lens).world.calls[e.2]? = some { c with Error := err } ∧
        ∀ ch, sentOn (terminateCallsBlocking w err lens).world ch e.2 =
          sentOn w ch e.2 + if ch = c.Done then 1 else 0) := by
  obtain ⟨pre, post, hl, hcl, hsent, hout, hret⟩ := terminateCallsBlocking_effect w err lens
  have hcount : ∀ (ch : Chan) (q : Ptr),
      sentOn (terminateCallsBlocking w err lens).world ch q =
        sentOn w ch q +
          if doneOf w q = some ch then (pre.map Prod.snd).count q else 0 := by
    intro ch q
    unfold sentOn
    rw [hsent, List.count_append, count_flush]
    rfl
  have hsub : (pre.map Prod.snd).Sublist (w.client.pending.map Prod.snd) := by
    rw [hl, List.map_append]
    exact List.sublist_append_left _ _
  refine ⟨by rw [hcl], by rw [hcl], by rw [hcl], by rw [hcl], ?_, ?_, ?_, ?_⟩
  · intro q hq
    refine ⟨hout q hq, ?_⟩
    intro ch
    have hq2 : q ∉ pre.map Prod.snd := fun hh => hq (hsub.subset hh)
    rw [hcount, List.count_eq_zero_of_not_mem hq2]
    simp
  · intro e he ch
    have hmem : e.2 ∈ w.client.pending.map Prod.snd := List.mem_map_of_mem _ he
    have hle : (pre.map Prod.snd).count e.2 ≤ 1 := by
      have h1 := hsub.count_le e.2
      rw [List.count_eq_one_of_mem hnodup hmem] at h1
      exact h1
    rw [hcount]
    constructor
    · exact Nat.le_add_right _ _
    · split
      · omega
      · exact Nat.le_refl _
  · show (flushFrom err { w with client := { w.client with shutdown := true } } lens
        w.client.pending).returned = true ↔ hasRoom w lens = true
    rw [flushFrom_returned, hasRoom_iff]
    rfl
  · intro hr e he
    rw [hret hr]
    exact (terminateCalls_flushes w err hnodup hvalid).2.2.2.2.1 e he

theorem c4_shutdown_flush_witness :
    (terminateCallsBlocking twoPending (some (.mk "EOF")) (fun _ => 0)).returned = true ∧
    (terminateCallsBlocking twoPending (some (.mk "EOF")) (fun _ => 0)).world.client.shutdown
      = true ∧
    (terminateCallsBlocking twoPending (some (.mk "EOF")) (fun _ => 0)).world.client.pending
      = [(1, 0), (2, 1)] ∧
    (terminateCallsBlocking twoPending (some (.mk "EOF")) (fun _ => 0)).world.sent
      = [(⟨0, 1⟩, 0), (⟨1, 1⟩, 1)] :=
  ⟨(c4_shutdown_flush twoPending (some (.mk "EOF")) (fun _ => 0) (by decide)
      (by decide)).2.2.2.2.2.2.1.2 (by decide),
   (c4_shutdown_flush twoPending (some (.mk "EOF")) (fun _ => 0) (by decide) (by decide)).1,
   by decide, by decide⟩

end GoRPC
